import Mathlib

/-!
# goregexassets: the worker body of `main` and the four patterns

A shallow embedding of `src/goregexassets.go`.

* The four pattern constants (`RegexIP`, `RegexDomain`, `RegexEmail`, `RegexURLPath`) are
  written as terms of a small regular-expression type, and `regexp.FindAllString` is modelled
  by the documented semantics of Go's `regexp` package: the leftmost match, and among the
  leftmost ones the match a backtracking search finds first; successive matches do not overlap.
* The body of the worker loop (source lines 186-307) is `processFile`: a function from the
  state of the four slices `emails`, `domains`, `ips`, `urlPaths` and of standard output to the
  state after one file content has been handled.

Text is `String` (a list of Unicode scalar values); every character class of the four patterns
is ASCII, so a rune outside ASCII is simply a character no class accepts. None of the four
patterns matches the empty text (`patterns_consume`, `ends_suffix`), so the rule of
`FindAllString` for empty matches plays no part.

`processFiles` is the run of one worker that handles the file contents in the order given,
and `main` puts the argument checks of lines 54-84 in front of it. A run of several workers
is `runWorkers`: every check-and-insert of a loop is made under the mutex of that loop, so a
run is an interleaving of the steps of the files the workers hold, and each worker receives
its next file from the channel `filepaths` when it has finished the previous one. In each
accepted mode all steps of a run are made under one and the same mutex. Reading a file and
walking the paths are not modelled; the functions take the file contents.
-/

namespace Goregexassets

/-! ## Regular expressions -/

/-- The fragment of Go regexp syntax the four patterns are written in: a character class,
concatenation, greedy `+`, and greedy bounded repetition `{lo,hi}`. -/
inductive Regex where
  | cls (p : Char → Bool)
  | seq (a b : Regex)
  | plus (a : Regex)
  | rep (a : Regex) (lo hi : Nat)

/-- Greedy `+` over a matcher `m`: after one iteration, another iteration is tried before
stopping. The first argument bounds the number of iterations. -/
def plusLoop (m : List Char → List (List Char)) : Nat → List Char → List (List Char)
  | 0, _ => []
  | fuel + 1, s => (m s).flatMap fun t => plusLoop m fuel t ++ [t]

/-- Greedy optional iterations of `m`, at most `k` of them. -/
def optLoop (m : List Char → List (List Char)) : Nat → List Char → List (List Char)
  | 0, s => [s]
  | k + 1, s => (m s).flatMap (optLoop m k) ++ [s]

/-- Greedy `{lo, lo + extra}` over `m`: `lo` mandatory iterations, then up to `extra` more. -/
def repLoop (m : List Char → List (List Char)) (extra : Nat) :
    Nat → List Char → List (List Char)
  | 0, s => optLoop m extra s
  | lo + 1, s => (m s).flatMap (repLoop m extra lo)

/-- Backtracking matcher: `ends re s` lists, in the order a backtracking search visits them,
the rests of `s` left after each way of matching `re` at the start of `s`. Its first element is
the match Go reports at this position (leftmost-first semantics). An iteration of `+` consumes
at least one character in every pattern of this program, so `s.length` iterations suffice
(`plusLoop_fuel`). -/
def ends : Regex → List Char → List (List Char)
  | .cls _, [] => []
  | .cls p, c :: s => if p c then [s] else []
  | .seq a b, s => (ends a s).flatMap (ends b)
  | .plus a, s => plusLoop (ends a) s.length s
  | .rep a lo hi, s => repLoop (ends a) (hi - lo) lo s

/-- Successive non-overlapping matches, scanning left to right. The counter is the number of
characters of the last match still to be skipped. -/
def findAllAux (re : Regex) : Nat → List Char → List (List Char)
  | _, [] => []
  | skip + 1, _ :: s => findAllAux re skip s
  | 0, c :: s =>
    match (ends re (c :: s)).head? with
    | none => findAllAux re 0 s
    | some t =>
      let n := (c :: s).length - t.length
      (c :: s).take n :: findAllAux re (n - 1) s

/-- The model of `regexp.FindAllString(s, -1)`. -/
def FindAllString (re : Regex) (s : String) : List String :=
  (findAllAux re 0 s.data).map String.mk

/-- A string that the pattern matches as a whole. -/
def fullMatch (re : Regex) (s : String) : Prop := [] ∈ ends re s.data

instance (re : Regex) (s : String) : Decidable (fullMatch re s) := by
  unfold fullMatch; infer_instance

/-! ## The four patterns -/

/-- A character range `lo-hi` of a class. -/
def inRange (lo hi c : Char) : Bool := decide (lo ≤ c) && decide (c ≤ hi)

/-- A literal character. -/
def lit (x : Char) : Regex := .cls fun c => c == x

/-- The class `[0-9]`. -/
def digitClass (c : Char) : Bool := inRange '0' '9' c

/-- The class `[a-zA-Z0-9_-]`. -/
def wordClass (c : Char) : Bool :=
  inRange 'a' 'z' c || inRange 'A' 'Z' c || inRange '0' '9' c || c == '_' || c == '-'

/-- The class `[a-zA-Z0-9]`. -/
def alnumClass (c : Char) : Bool :=
  inRange 'a' 'z' c || inRange 'A' 'Z' c || inRange '0' '9' c

/-- The class `[a-z0-9A-Z=&?-]`. -/
def schemeClass (c : Char) : Bool :=
  inRange 'a' 'z' c || inRange '0' '9' c || inRange 'A' 'Z' c || c == '=' || c == '&' ||
    c == '?' || c == '-'

/-- The class `[0-9a-zA-Z/.#=?&-]`. -/
def pathClass (c : Char) : Bool :=
  inRange '0' '9' c || inRange 'a' 'z' c || inRange 'A' 'Z' c || c == '/' || c == '.' ||
    c == '#' || c == '=' || c == '?' || c == '&' || c == '-'

/-- The group `[0-9]{1,3}`. -/
def octet : Regex := .rep (.cls digitClass) 1 3

/-- The group `([a-zA-Z0-9_-]+\.)`. -/
def label : Regex := .seq (.plus (.cls wordClass)) (lit '.')

/-- `[0-9]{1,3}\.[0-9]{1,3}\.[0-9]{1,3}\.[0-9]{1,3}` -/
def RegexIP : Regex :=
  .seq octet (.seq (lit '.') (.seq octet (.seq (lit '.') (.seq octet (.seq (lit '.') octet)))))

/-- `([a-zA-Z0-9_-]+\.)+[a-zA-Z0-9_-]{1,6}` -/
def RegexDomain : Regex :=
  .seq (.plus label) (.rep (.cls wordClass) 1 6)

/-- `[a-zA-Z0-9_-]+@([a-zA-Z0-9_-]+\.)+[a-zA-Z0-9]{1,6}` -/
def RegexEmail : Regex :=
  .seq (.plus (.cls wordClass)) (.seq (lit '@') (.seq (.plus label) (.rep (.cls alnumClass) 1 6)))

/-- `(?:[a-z0-9A-Z=&?-]+://)[0-9a-zA-Z/.#=?&-]+` -/
def RegexURLPath : Regex :=
  .seq (.seq (.plus (.cls schemeClass)) (.seq (lit ':') (.seq (lit '/') (lit '/'))))
    (.plus (.cls pathClass))

/-! ## Library functions on strings -/

/-- The model of `strings.ToLower`, on the ASCII letters. The only argument it receives in this
program is a match of `RegexDomain`, which is ASCII. -/
def ToLower (s : String) : String := String.mk (s.data.map Char.toLower)

/-- The model of `strings.HasSuffix`. -/
def HasSuffix (s suffix : String) : Bool := suffix.data.isSuffixOf s.data

/-! ## The worker body -/

/-- The variables the workers share: the four slices declared at source lines 145-148, and
the lines printed to standard output so far. -/
structure State where
  emails : List String
  domains : List String
  ips : List String
  urlPaths : List String
  stdout : List String
deriving DecidableEq, Repr

/-- The state at the start of a run: the four slices are nil and nothing has been printed. -/
def State.init : State := ⟨[], [], [], [], []⟩

/-- One iteration of the loop over `urlPathsInFile` (lines 190-206). The membership test is
made on `urlPaths`, and the assignment is `emails = append(urlPaths, urlPath)`. -/
def urlPathStep (st : State) (urlPath : String) : State :=
  if urlPath ∈ st.urlPaths then st
  else { st with emails := st.urlPaths ++ [urlPath], stdout := st.stdout ++ [urlPath] }

/-- One iteration of the loop over `emailsInFile` (lines 213-229). -/
def emailStep (st : State) (email : String) : State :=
  if email ∈ st.emails then st
  else { st with emails := st.emails ++ [email], stdout := st.stdout ++ [email] }

/-- One iteration of the loop over `ipsInFile` (lines 236-253). -/
def ipStep (st : State) (ip : String) : State :=
  if ip ∈ st.ips then st
  else { st with ips := st.ips ++ [ip], stdout := st.stdout ++ [ip] }

/-- The test of lines 292-293 on a newly found domain. -/
def companyMatch (companyDomain domain : String) : Bool :=
  HasSuffix (ToLower domain) ("." ++ companyDomain) || ToLower domain == companyDomain

/-- One iteration of the loop over `domainsInFile` (lines 266-306). -/
def domainStep (assetType companyDomain : String) (ipsInFile : List String)
    (st : State) (domain : String) : State :=
  if domain ∈ ipsInFile then st
  else if domain ∈ st.domains then st
  else if assetType = "companydomain" then
    if companyMatch companyDomain domain then
      { st with domains := st.domains ++ [domain], stdout := st.stdout ++ [domain] }
    else { st with domains := st.domains ++ [domain] }
  else { st with domains := st.domains ++ [domain], stdout := st.stdout ++ [domain] }

/-- Lines 186-207: the urlpath branch. -/
def urlPathBranch (assetType fileContent : String) (st : State) : State :=
  if assetType = "all" ∨ assetType = "urlpath" then
    (FindAllString RegexURLPath fileContent).foldl urlPathStep st
  else st

/-- Lines 209-230: the email branch. -/
def emailBranch (assetType fileContent : String) (st : State) : State :=
  if assetType = "all" ∨ assetType = "email" then
    (FindAllString RegexEmail fileContent).foldl emailStep st
  else st

/-- Lines 232-254: the ip branch. -/
def ipBranch (assetType fileContent : String) (st : State) : State :=
  if assetType = "all" ∨ assetType = "ip" then
    (FindAllString RegexIP fileContent).foldl ipStep st
  else st

/-- Lines 256-307: the domain branch. -/
def domainBranch (assetType companyDomain fileContent : String) (st : State) : State :=
  if assetType = "all" ∨ assetType = "domain" ∨ assetType = "companydomain" then
    (FindAllString RegexDomain fileContent).foldl
      (domainStep assetType companyDomain (FindAllString RegexIP fileContent)) st
  else st

/-- The body of the worker loop for one file content (lines 186-307). -/
def processFile (assetType companyDomain fileContent : String) (st : State) : State :=
  domainBranch assetType companyDomain fileContent
    (ipBranch assetType fileContent
      (emailBranch assetType fileContent
        (urlPathBranch assetType fileContent st)))

/-- A run that handles the file contents one after the other, from the initial state. -/
def processFiles (assetType companyDomain : String) (fileContents : List String) : State :=
  fileContents.foldl (fun st c => processFile assetType companyDomain c st) State.init

/-! ## The argument checks of `main` -/

/-- The list of asset types that `main` accepts (lines 18-19). -/
def AllowedAssetTypes : List String := ["email", "ip", "domain", "urlpath", "companydomain"]

/-- How a run of `main` ends: at a `log.Fatal` after one line was printed (exit status 1), or
after the workers have handled every file. -/
inductive Outcome where
  | fatal (line : String)
  | finished (st : State)
deriving DecidableEq, Repr

/-- The lines a run wrote to standard output. -/
def Outcome.stdout : Outcome → List String
  | .fatal line => [line]
  | .finished st => st.stdout

/-- The function `main`, for the file contents that the walk over `paths` finds, handled one
after the other (one worker, or a single file). The three checks of lines 54-84 come first, in
the order of the source; each prints one line and ends the run before any file is read. -/
def main (pathsToParse assetType companyDomain : String) (fileContents : List String) :
    Outcome :=
  if assetType = "companydomain" ∧ companyDomain = "" then
    .fatal "[-] Company domain must be specified to get subdomains"
  else if pathsToParse = "" then
    .fatal "[-] Files for assets to parse must be provided"
  else if assetType ∉ AllowedAssetTypes then
    .fatal ("[-] Invalid asset type: " ++ assetType ++ " provided. Can be one of: " ++
      ",".intercalate AllowedAssetTypes)
  else .finished (processFiles assetType companyDomain fileContents)

/-! ## The worker pool -/

/-- One check-and-insert of a worker: one iteration of one of the four loops, made while the
worker holds the mutex of that loop. -/
inductive Step where
  | urlPath (urlPath : String)
  | email (email : String)
  | ip (ip : String)
  | domain (ipsInFile : List String) (domain : String)
deriving DecidableEq, Repr

/-- The effect of one check-and-insert on the shared variables. -/
def Step.apply (assetType companyDomain : String) : Step → State → State
  | .urlPath u, st => urlPathStep st u
  | .email e, st => emailStep st e
  | .ip i, st => ipStep st i
  | .domain ipsInFile d, st => domainStep assetType companyDomain ipsInFile st d

/-- The check-and-insert steps a worker makes for one file content, in the order of the worker
body (lines 186-307). The matches are computed from the worker's own copy of the content. -/
def fileSteps (assetType fileContent : String) : List Step :=
  (if assetType = "all" ∨ assetType = "urlpath" then
    (FindAllString RegexURLPath fileContent).map .urlPath else []) ++
  ((if assetType = "all" ∨ assetType = "email" then
    (FindAllString RegexEmail fileContent).map .email else []) ++
  ((if assetType = "all" ∨ assetType = "ip" then
    (FindAllString RegexIP fileContent).map .ip else []) ++
  (if assetType = "all" ∨ assetType = "domain" ∨ assetType = "companydomain" then
    (FindAllString RegexDomain fileContent).map
      (.domain (FindAllString RegexIP fileContent)) else [])))

/-- A moment of a run with several workers: the file contents still in the channel's producer
loop (lines 312-316), for each worker the steps left of the file it holds (none when it waits
on the channel), and the shared variables. -/
structure Config where
  queue : List String
  workers : List (List Step)
  st : State

/-- What can happen next: a waiting worker receives the next file from the channel, or a
worker makes its next check-and-insert. -/
inductive Action where
  | receive (worker : Nat)
  | step (worker : Nat)
deriving DecidableEq, Repr

/-- Worker `i` receives a file with the given steps; only a waiting worker can. -/
def giveTo (steps : List Step) : Nat → List (List Step) → Option (List (List Step))
  | _, [] => none
  | 0, [] :: ws => some (steps :: ws)
  | 0, (_ :: _) :: _ => none
  | i + 1, w :: ws => (giveTo steps i ws).map fun ws2 => w :: ws2

/-- Worker `i` takes its next step, if it has one. -/
def takeAt : Nat → List (List Step) → Option (Step × List (List Step))
  | _, [] => none
  | 0, [] :: _ => none
  | 0, (s :: rest) :: ws => some (s, rest :: ws)
  | i + 1, w :: ws => (takeAt i ws).map fun r => (r.1, w :: r.2)

/-- One action of a run. -/
def exec1 (assetType companyDomain : String) (c : Config) : Action → Option Config
  | .receive i =>
    match c.queue with
    | [] => none
    | f :: q => (giveTo (fileSteps assetType f) i c.workers).map fun ws => ⟨q, ws, c.st⟩
  | .step i =>
    (takeAt i c.workers).map fun r => ⟨c.queue, r.2, r.1.apply assetType companyDomain c.st⟩

/-- A sequence of actions. -/
def exec (assetType companyDomain : String) : Config → List Action → Option Config
  | c, [] => some c
  | c, a :: rest =>
    match exec1 assetType companyDomain c a with
    | none => none
    | some c2 => exec assetType companyDomain c2 rest

/-- The steps that are still to be made. -/
def pending (assetType : String) (c : Config) : List Step :=
  c.workers.flatten ++ c.queue.flatMap (fileSteps assetType)

/-- A run of `threads` workers over the file contents along a schedule: the shared variables
at the end, when the schedule is one the workers can follow and it handles every file. -/
def runWorkers (assetType companyDomain : String) (threads : Nat) (fileContents : List String)
    (schedule : List Action) : Option State :=
  match exec assetType companyDomain ⟨fileContents, List.replicate threads [], State.init⟩
      schedule with
  | none => none
  | some c => if c.queue = [] ∧ c.workers.flatten = [] then some c.st else none

/-- The values a step can add to the slice `emails`, the urlpath step apart. -/
def Step.newEmails : Step → List String
  | .email e => [e]
  | _ => []

/-- The values a step can add to the slice `ips`. -/
def Step.newIps : Step → List String
  | .ip i => [i]
  | _ => []

/-- The values a step can add to the slice `domains`. -/
def Step.newDomains : Step → List String
  | .domain ipsInFile d => if d ∈ ipsInFile then [] else [d]
  | _ => []

/-- A step of the urlpath loop. -/
def Step.isUrlPath : Step → Bool
  | .urlPath _ => true
  | _ => false

/-! ## Reference definitions and closed forms of the loops -/

/-- The values of `vs` that a deduplicating loop starting from `seen` appends, in order. -/
def fresh : List String → List String → List String
  | _, [] => []
  | seen, v :: vs => if v ∈ seen then fresh seen vs else v :: fresh (seen ++ [v]) vs

/-- Reference definition, in the words of the specification: the list with every later
repetition of a value dropped (first-occurrence order). -/
def firstOccurrences : List String → List String
  | [] => []
  | v :: vs => v :: (firstOccurrences vs).filter fun w => w ≠ v

/-- Whether the domain branch prints a newly inserted domain. -/
def printsDomain (assetType companyDomain domain : String) : Bool :=
  if assetType = "companydomain" then companyMatch companyDomain domain else true

/-- The effect of the urlpath loop on the slice `emails`. -/
def urlPathEmails (urlPaths emails found : List String) : List String :=
  match (found.filter fun u => u ∉ urlPaths).getLast? with
  | none => emails
  | some u => urlPaths ++ [u]

/-- The domain candidates of a file content: the matches of `RegexDomain` that are not equal
to a match of `RegexIP` in the same content. -/
def domainCandidates (fileContent : String) : List String :=
  (FindAllString RegexDomain fileContent).filter fun d =>
    d ∉ FindAllString RegexIP fileContent

/-- The file content of Scenario 1. -/
def scenario1 : String :=
  "contact: a@b.com visit http://1.2.3.4/page also sub.example.com 10.0.0.5"

/-! ## Notions used in the proofs about the patterns -/

/-- A pattern that cannot match the empty text. -/
def consumes : Regex → Bool
  | .cls _ => true
  | .seq a b => consumes a || consumes b
  | .plus a => consumes a
  | .rep a lo _ => decide (1 ≤ lo) && consumes a

/-- A non-empty run of at most `n` characters of the class `p`. -/
def Block (p : Char → Bool) (n : Nat) (w : List Char) : Prop :=
  w ≠ [] ∧ (∀ c ∈ w, p c = true) ∧ w.length ≤ n

/-- Digits and dots, starting and ending with a digit, no two dots adjacent. -/
inductive DotSep : List Char → Prop
  | one (c : Char) : digitClass c = true → DotSep [c]
  | digit (c : Char) (w : List Char) : digitClass c = true → DotSep w → DotSep (c :: w)
  | dot (c : Char) (w : List Char) : digitClass c = true → DotSep w → DotSep (c :: '.' :: w)

/-- A text after which a match of the ip pattern cannot continue: it does not end with a
character of the class `[a-zA-Z0-9_-]`, nor with such a character followed by a dot. -/
def Sep (u : List Char) : Prop :=
  (∀ u0 c, u = u0 ++ [c] → wordClass c = false) ∧
    (∀ u0 c, u = u0 ++ [c, '.'] → wordClass c = false)

/-- The ends of the domain pattern with an explicit bound on the number of labels. -/
def domEnds (f : Nat) (s : List Char) : List (List Char) :=
  (plusLoop (ends label) f s).flatMap (ends (.rep (.cls wordClass) 1 6))

/-- A text that starts with a character of the class `[a-zA-Z0-9_-]`. -/
def StartsWord (s : List Char) : Prop := ∃ c r, s = c :: r ∧ wordClass c = true

/-- A text that does not start with a (possibly empty) run of the class `[a-zA-Z0-9_-]`
followed by a dot and one more character of the class. -/
def NoDotWord (s : List Char) : Prop :=
  ∀ r z, (∀ x ∈ r, wordClass x = true) → StartsWord z → s ≠ r ++ '.' :: z

/-- What the scan for domain matches knows about the text `u` already passed when it stands
before the rest `s`: after a character of the class, no label can continue into a match; and
after such a character and a dot, the rest does not start with a character of the class. -/
def DomainInv (u s : List Char) : Prop :=
  (∀ u0 c, u = u0 ++ [c] → wordClass c = true → NoDotWord s) ∧
    (∀ u0 c, u = u0 ++ [c, '.'] → wordClass c = true → ¬ StartsWord s)

/-! ## Deduplicating insertion -/

theorem fresh_append (seen vs ws : List String) :
    fresh seen (vs ++ ws) = fresh seen vs ++ fresh (seen ++ fresh seen vs) ws := by
  induction vs generalizing seen with
  | nil => simp [fresh]
  | cons v vs ih =>
    by_cases h : v ∈ seen
    · simp [fresh, h, ih]
    · simp [fresh, h, ih]

theorem fresh_eq_filter (seen vs : List String) :
    fresh seen vs = (firstOccurrences vs).filter fun w => w ∉ seen := by
  induction vs generalizing seen with
  | nil => simp [fresh, firstOccurrences]
  | cons v vs ih =>
    by_cases h : v ∈ seen
    · simp only [fresh, h, if_true, firstOccurrences, ih, List.filter_cons, not_true_eq_false,
        decide_False, Bool.false_eq_true, if_false, List.filter_filter]
      apply List.filter_congr
      intro w _
      by_cases hw : w ∈ seen
      · simp [hw]
      · have : w ≠ v := fun e => hw (e ▸ h)
        simp [hw, this]
    · simp only [fresh, h, if_false, firstOccurrences, ih, List.filter_cons, not_false_eq_true,
        decide_True, if_true, List.filter_filter, List.cons.injEq, true_and]
      apply List.filter_congr
      intro w _
      simp [List.mem_append, Bool.and_comm]

theorem fresh_nil_left (vs : List String) : fresh [] vs = firstOccurrences vs := by
  rw [fresh_eq_filter]; simp

theorem mem_firstOccurrences (vs : List String) (v : String) :
    v ∈ firstOccurrences vs ↔ v ∈ vs := by
  induction vs with
  | nil => simp [firstOccurrences]
  | cons x vs ih =>
    by_cases h : v = x
    · simp [firstOccurrences, h]
    · simp [firstOccurrences, h, ih, List.mem_filter]

theorem firstOccurrences_nodup (vs : List String) : (firstOccurrences vs).Nodup := by
  induction vs with
  | nil => simp [firstOccurrences]
  | cons x vs ih =>
    simp only [firstOccurrences, List.nodup_cons, List.mem_filter]
    exact ⟨by simp, ih.filter _⟩

theorem fresh_idem (seen vs : List String) : fresh (seen ++ fresh seen vs) vs = [] := by
  rw [fresh_eq_filter, List.filter_eq_nil_iff]
  intro w hw
  have : w ∈ vs := (mem_firstOccurrences vs w).1 hw
  by_cases h : w ∈ seen
  · simp [h]
  · have : w ∈ fresh seen vs := by
      rw [fresh_eq_filter, List.mem_filter]; exact ⟨hw, by simp [h]⟩
    simp [this]

/-! ## The four loops in closed form -/

theorem foldl_emailStep (vs : List String) (st : State) :
    vs.foldl emailStep st =
      { st with emails := st.emails ++ fresh st.emails vs,
                stdout := st.stdout ++ fresh st.emails vs } := by
  induction vs generalizing st with
  | nil => simp [fresh]
  | cons v vs ih =>
    by_cases h : v ∈ st.emails
    · simp [List.foldl_cons, emailStep, fresh, h, ih]
    · simp [List.foldl_cons, emailStep, fresh, h, ih]

theorem foldl_ipStep (vs : List String) (st : State) :
    vs.foldl ipStep st =
      { st with ips := st.ips ++ fresh st.ips vs,
                stdout := st.stdout ++ fresh st.ips vs } := by
  induction vs generalizing st with
  | nil => simp [fresh]
  | cons v vs ih =>
    by_cases h : v ∈ st.ips
    · simp [List.foldl_cons, ipStep, fresh, h, ih]
    · simp [List.foldl_cons, ipStep, fresh, h, ih]

theorem foldl_domainStep (assetType companyDomain : String) (ipsInFile vs : List String)
    (st : State) :
    vs.foldl (domainStep assetType companyDomain ipsInFile) st =
      { st with
        domains := st.domains ++ fresh st.domains (vs.filter fun d => d ∉ ipsInFile),
        stdout := st.stdout ++
          (fresh st.domains (vs.filter fun d => d ∉ ipsInFile)).filter
            (printsDomain assetType companyDomain) } := by
  induction vs generalizing st with
  | nil => simp [fresh]
  | cons v vs ih =>
    by_cases h : v ∈ ipsInFile
    · simp [List.foldl_cons, domainStep, h, ih]
    · by_cases h2 : v ∈ st.domains
      · simp [List.foldl_cons, domainStep, fresh, h, h2, ih]
      · by_cases h3 : assetType = "companydomain"
        · subst h3
          by_cases h4 : companyMatch companyDomain v = true
          · simp [List.foldl_cons, domainStep, fresh, h, h2, h4, ih, printsDomain]
          · simp [List.foldl_cons, domainStep, fresh, h, h2, h4, ih, printsDomain]
        · simp [List.foldl_cons, domainStep, fresh, h, h2, h3, ih, printsDomain]

theorem foldl_urlPathStep (vs : List String) (st : State) :
    vs.foldl urlPathStep st =
      { st with emails := urlPathEmails st.urlPaths st.emails vs,
                stdout := st.stdout ++ vs.filter fun u => u ∉ st.urlPaths } := by
  induction vs generalizing st with
  | nil => simp [urlPathEmails]
  | cons v vs ih =>
    by_cases h : v ∈ st.urlPaths
    · simp [List.foldl_cons, urlPathStep, h, ih, urlPathEmails]
    · simp only [List.foldl_cons, urlPathStep, h, if_false, ih, urlPathEmails, List.filter_cons,
        not_false_eq_true, decide_True, if_true, List.append_assoc, List.singleton_append]
      cases hl : List.filter (fun u => decide (u ∉ st.urlPaths)) vs with
      | nil => simp
      | cons w ws =>
        cases hg : (w :: ws).getLast? with
        | none => simp at hg
        | some u => simp [List.getLast?_cons_cons, hg]

/-! ## One file content, slice by slice -/

theorem processFile_urlPaths (assetType companyDomain fileContent : String) (st : State) :
    (processFile assetType companyDomain fileContent st).urlPaths = st.urlPaths := by
  simp only [processFile, domainBranch, ipBranch, emailBranch, urlPathBranch, foldl_domainStep,
    foldl_ipStep, foldl_emailStep, foldl_urlPathStep]
  split_ifs <;> rfl

theorem processFile_ips (assetType companyDomain fileContent : String) (st : State) :
    (processFile assetType companyDomain fileContent st).ips =
      if assetType = "all" ∨ assetType = "ip" then
        st.ips ++ fresh st.ips (FindAllString RegexIP fileContent)
      else st.ips := by
  simp only [processFile, domainBranch, ipBranch, emailBranch, urlPathBranch, foldl_domainStep,
    foldl_ipStep, foldl_emailStep, foldl_urlPathStep]
  split_ifs <;> rfl

theorem processFile_domains (assetType companyDomain fileContent : String) (st : State) :
    (processFile assetType companyDomain fileContent st).domains =
      if assetType = "all" ∨ assetType = "domain" ∨ assetType = "companydomain" then
        st.domains ++ fresh st.domains (domainCandidates fileContent)
      else st.domains := by
  simp only [processFile, domainBranch, ipBranch, emailBranch, urlPathBranch, foldl_domainStep,
    foldl_ipStep, foldl_emailStep, foldl_urlPathStep, domainCandidates]
  split_ifs <;> rfl

theorem processFile_emails (assetType companyDomain fileContent : String) (st : State) :
    (processFile assetType companyDomain fileContent st).emails =
      if assetType = "all" ∨ assetType = "email" then
        (if assetType = "all" ∨ assetType = "urlpath" then
          urlPathEmails st.urlPaths st.emails (FindAllString RegexURLPath fileContent)
        else st.emails) ++
        fresh (if assetType = "all" ∨ assetType = "urlpath" then
          urlPathEmails st.urlPaths st.emails (FindAllString RegexURLPath fileContent)
        else st.emails) (FindAllString RegexEmail fileContent)
      else if assetType = "all" ∨ assetType = "urlpath" then
        urlPathEmails st.urlPaths st.emails (FindAllString RegexURLPath fileContent)
      else st.emails := by
  simp only [processFile, domainBranch, ipBranch, emailBranch, urlPathBranch, foldl_domainStep,
    foldl_ipStep, foldl_emailStep, foldl_urlPathStep]
  split_ifs <;> rfl

theorem urlPathEmails_cases (urlPaths found : List String) :
    (∀ emails, urlPathEmails urlPaths emails found = emails) ∨
      ∃ u, ∀ emails, urlPathEmails urlPaths emails found = urlPaths ++ [u] := by
  unfold urlPathEmails
  cases (found.filter fun u => u ∉ urlPaths).getLast? with
  | none => exact Or.inl fun _ => rfl
  | some u => exact Or.inr ⟨u, fun _ => rfl⟩

theorem processFile_domain (companyDomain fileContent : String) (st : State) :
    processFile "domain" companyDomain fileContent st =
      { st with domains := st.domains ++ fresh st.domains (domainCandidates fileContent),
                stdout := st.stdout ++ fresh st.domains (domainCandidates fileContent) } := by
  have hp : printsDomain "domain" companyDomain = fun _ => true := by
    funext d; simp [printsDomain]
  simp [processFile, domainBranch, ipBranch, emailBranch, urlPathBranch, foldl_domainStep,
    domainCandidates, hp]

theorem processFile_companydomain (companyDomain fileContent : String) (st : State) :
    processFile "companydomain" companyDomain fileContent st =
      { st with domains := st.domains ++ fresh st.domains (domainCandidates fileContent),
                stdout := st.stdout ++
                  (fresh st.domains (domainCandidates fileContent)).filter
                    (companyMatch companyDomain) } := by
  have hp : printsDomain "companydomain" companyDomain = companyMatch companyDomain := by
    funext d; simp [printsDomain]
  simp [processFile, domainBranch, ipBranch, emailBranch, urlPathBranch, foldl_domainStep,
    domainCandidates, hp]

theorem processFile_email (companyDomain fileContent : String) (st : State) :
    processFile "email" companyDomain fileContent st =
      { st with emails := st.emails ++ fresh st.emails (FindAllString RegexEmail fileContent),
                stdout := st.stdout ++ fresh st.emails (FindAllString RegexEmail fileContent) } := by
  simp [processFile, domainBranch, ipBranch, emailBranch, urlPathBranch, foldl_emailStep]

theorem processFile_ip (companyDomain fileContent : String) (st : State) :
    processFile "ip" companyDomain fileContent st =
      { st with ips := st.ips ++ fresh st.ips (FindAllString RegexIP fileContent),
                stdout := st.stdout ++ fresh st.ips (FindAllString RegexIP fileContent) } := by
  simp [processFile, domainBranch, ipBranch, emailBranch, urlPathBranch, foldl_ipStep]

theorem processFile_urlpath (companyDomain fileContent : String) (st : State) :
    processFile "urlpath" companyDomain fileContent st =
      { st with
        emails := urlPathEmails st.urlPaths st.emails (FindAllString RegexURLPath fileContent),
        stdout := st.stdout ++
          (FindAllString RegexURLPath fileContent).filter fun u => u ∉ st.urlPaths } := by
  simp [processFile, domainBranch, ipBranch, emailBranch, urlPathBranch, foldl_urlPathStep]

theorem foldl_processFile_email (companyDomain : String) (files : List String) (st : State) :
    files.foldl (fun st c => processFile "email" companyDomain c st) st =
      { st with
        emails := st.emails ++ fresh st.emails (files.flatMap (FindAllString RegexEmail)),
        stdout := st.stdout ++ fresh st.emails (files.flatMap (FindAllString RegexEmail)) } := by
  induction files generalizing st with
  | nil => simp [fresh]
  | cons c cs ih =>
    rw [List.foldl_cons, ih]
    simp [processFile_email, fresh_append]

theorem foldl_processFile_ip (companyDomain : String) (files : List String) (st : State) :
    files.foldl (fun st c => processFile "ip" companyDomain c st) st =
      { st with
        ips := st.ips ++ fresh st.ips (files.flatMap (FindAllString RegexIP)),
        stdout := st.stdout ++ fresh st.ips (files.flatMap (FindAllString RegexIP)) } := by
  induction files generalizing st with
  | nil => simp [fresh]
  | cons c cs ih =>
    rw [List.foldl_cons, ih]
    simp [processFile_ip, fresh_append]

theorem foldl_processFile_domain (companyDomain : String) (files : List String) (st : State) :
    files.foldl (fun st c => processFile "domain" companyDomain c st) st =
      { st with
        domains := st.domains ++ fresh st.domains (files.flatMap domainCandidates),
        stdout := st.stdout ++ fresh st.domains (files.flatMap domainCandidates) } := by
  induction files generalizing st with
  | nil => simp [fresh]
  | cons c cs ih =>
    rw [List.foldl_cons, ih]
    simp [processFile_domain, fresh_append]

/-! ## The matcher on classes, bounded repetitions and literals -/

theorem ends_lit_cons (x c : Char) (s : List Char) :
    ends (lit x) (c :: s) = if c = x then [s] else [] := by
  simp [lit, ends]

theorem ends_lit_nil (x : Char) : ends (lit x) [] = [] := by
  simp [lit, ends]

theorem optLoop_zero (m : List Char → List (List Char)) (s : List Char) :
    optLoop m 0 s = [s] := rfl

theorem optLoop_cls_nil (p : Char → Bool) (k : Nat) :
    optLoop (ends (.cls p)) k [] = [[]] := by
  cases k <;> simp [optLoop, ends]

theorem optLoop_cls_cons (p : Char → Bool) (k : Nat) (c : Char) (s : List Char) :
    optLoop (ends (.cls p)) (k + 1) (c :: s) =
      if p c then optLoop (ends (.cls p)) k s ++ [c :: s] else [c :: s] := by
  by_cases h : p c <;> simp [optLoop, ends, h]

theorem ends_rep_one_nil (p : Char → Bool) (e : Nat) :
    ends (.rep (.cls p) 1 (e + 1)) [] = [] := by
  simp [ends, repLoop]

theorem ends_rep_one_cons (p : Char → Bool) (e : Nat) (c : Char) (s : List Char) :
    ends (.rep (.cls p) 1 (e + 1)) (c :: s) =
      if p c then optLoop (ends (.cls p)) e s else [] := by
  by_cases h : p c <;> simp [ends, repLoop, h]

theorem optLoop_ne_nil (m : List Char → List (List Char)) (k : Nat) (s : List Char) :
    optLoop m k s ≠ [] := by
  cases k <;> simp [optLoop]

/-- The first end of greedy optional iterations of a class: as many characters as allowed. -/
theorem optLoop_head (p : Char → Bool) (k : Nat) (w t : List Char)
    (hw : ∀ c ∈ w, p c = true) (hlen : w.length ≤ k)
    (hstop : w.length < k → ∀ c r, t = c :: r → p c = false) :
    (optLoop (ends (.cls p)) k (w ++ t)).head? = some t := by
  induction k generalizing w with
  | zero =>
    have : w = [] := List.length_eq_zero.1 (Nat.le_zero.1 hlen)
    simp [this, optLoop]
  | succ k ih =>
    cases w with
    | nil =>
      cases t with
      | nil => simp [optLoop_cls_nil]
      | cons c r =>
        have := hstop (by simp) c r rfl
        simp [optLoop_cls_cons, this]
    | cons c w =>
      have hc : p c = true := hw c (by simp)
      have h1 := ih w (fun x hx => hw x (by simp [hx])) (by simpa using hlen)
        (fun h => hstop (by simpa using h))
      simp only [List.cons_append, optLoop_cls_cons, hc, if_true]
      rw [List.head?_append_of_ne_nil _ (optLoop_ne_nil _ _ _)]
      exact h1

theorem optLoop_mem (p : Char → Bool) (k : Nat) (s t : List Char)
    (h : t ∈ optLoop (ends (.cls p)) k s) :
    ∃ w, s = w ++ t ∧ (∀ c ∈ w, p c = true) ∧ w.length ≤ k := by
  induction k generalizing s with
  | zero =>
    simp [optLoop] at h
    exact ⟨[], by simp [h]⟩
  | succ k ih =>
    cases s with
    | nil =>
      simp [optLoop_cls_nil] at h
      exact ⟨[], by simp [h]⟩
    | cons c s =>
      rw [optLoop_cls_cons] at h
      by_cases hc : p c = true
      · simp only [hc, if_true, List.mem_append, List.mem_singleton] at h
        rcases h with h | h
        · obtain ⟨w, hs, hw, hl⟩ := ih s h
          refine ⟨c :: w, by simp [hs], ?_, by simpa using hl⟩
          intro x hx
          rcases List.mem_cons.1 hx with rfl | hx
          · exact hc
          · exact hw x hx
        · exact ⟨[], by simp [h]⟩
      · have hc2 : p c = false := by simpa using hc
        simp [hc2] at h
        exact ⟨[], by simp [h]⟩

/-- The first end of greedy optional iterations, read backwards. -/
theorem optLoop_head_inv (p : Char → Bool) (k : Nat) (s t : List Char)
    (h : (optLoop (ends (.cls p)) k s).head? = some t) :
    ∃ w, s = w ++ t ∧ (∀ c ∈ w, p c = true) ∧ w.length ≤ k ∧
      (w.length < k → ∀ c r, t = c :: r → p c = false) := by
  induction k generalizing s with
  | zero =>
    simp [optLoop] at h
    exact ⟨[], by simp [h]⟩
  | succ k ih =>
    cases s with
    | nil =>
      simp [optLoop_cls_nil] at h
      subst h
      exact ⟨[], by simp⟩
    | cons c s =>
      rw [optLoop_cls_cons] at h
      by_cases hc : p c = true
      · simp only [hc, if_true] at h
        rw [List.head?_append_of_ne_nil _ (optLoop_ne_nil _ _ _)] at h
        obtain ⟨w, hs, hw, hl, hstop⟩ := ih s h
        refine ⟨c :: w, by simp [hs], ?_, by simpa using hl, fun hlt => hstop (by simpa using hlt)⟩
        intro x hx
        rcases List.mem_cons.1 hx with rfl | hx
        · exact hc
        · exact hw x hx
      · have hc2 : p c = false := by simpa using hc
        simp [hc2] at h
        subst h
        refine ⟨[], by simp, by simp, by simp, ?_⟩
        intro _ x r hx
        simp only [List.cons.injEq] at hx
        rw [← hx.1]
        exact hc2

theorem ends_seq (a b : Regex) (s : List Char) :
    ends (.seq a b) s = (ends a s).flatMap (ends b) := by
  simp [ends]

theorem mem_ends_lit (x : Char) (s t : List Char) (h : t ∈ ends (lit x) s) : s = x :: t := by
  cases s with
  | nil => simp [ends_lit_nil] at h
  | cons c s =>
    rw [ends_lit_cons] at h
    by_cases hc : c = x
    · simp [hc] at h; simp [hc, h]
    · simp [hc] at h

theorem rep_one_mem (p : Char → Bool) (e : Nat) (s t : List Char)
    (h : t ∈ ends (.rep (.cls p) 1 (e + 1)) s) : ∃ w, s = w ++ t ∧ Block p (e + 1) w := by
  cases s with
  | nil => simp [ends_rep_one_nil] at h
  | cons c s =>
    rw [ends_rep_one_cons] at h
    by_cases hc : p c = true
    · simp only [hc, if_true] at h
      obtain ⟨w, hs, hw, hl⟩ := optLoop_mem p e s t h
      refine ⟨c :: w, by simp [hs], by simp, ?_, by simpa using hl⟩
      intro x hx
      rcases List.mem_cons.1 hx with rfl | hx
      · exact hc
      · exact hw x hx
    · have hc2 : p c = false := by simpa using hc
      simp [hc2] at h

theorem rep_one_head (p : Char → Bool) (e : Nat) (w t : List Char) (hw : Block p (e + 1) w)
    (hstop : w.length < e + 1 → ∀ c r, t = c :: r → p c = false) :
    (ends (.rep (.cls p) 1 (e + 1)) (w ++ t)).head? = some t := by
  obtain ⟨hne, hall, hlen⟩ := hw
  cases w with
  | nil => exact absurd rfl hne
  | cons c w =>
    have hc : p c = true := hall c (by simp)
    simp only [List.cons_append, ends_rep_one_cons, hc, if_true]
    exact optLoop_head p e w t (fun x hx => hall x (by simp [hx])) (by simpa using hlen)
      (fun h => hstop (by simpa using h))

theorem rep_one_head_inv (p : Char → Bool) (e : Nat) (s t : List Char)
    (h : (ends (.rep (.cls p) 1 (e + 1)) s).head? = some t) :
    ∃ w, s = w ++ t ∧ Block p (e + 1) w ∧
      (w.length < e + 1 → ∀ c r, t = c :: r → p c = false) := by
  cases s with
  | nil => simp [ends_rep_one_nil] at h
  | cons c s =>
    rw [ends_rep_one_cons] at h
    by_cases hc : p c = true
    · simp only [hc, if_true] at h
      obtain ⟨w, hs, hw, hl, hstop⟩ := optLoop_head_inv p e s t h
      refine ⟨c :: w, by simp [hs], ⟨by simp, ?_, by simpa using hl⟩,
        fun hlt => hstop (by simpa using hlt)⟩
      intro x hx
      rcases List.mem_cons.1 hx with rfl | hx
      · exact hc
      · exact hw x hx
    · have hc2 : p c = false := by simpa using hc
      simp [hc2] at h

/-! ## The ip pattern -/

theorem digitClass_dot : digitClass '.' = false := by decide

theorem wordClass_dot : wordClass '.' = false := by decide

theorem wordClass_of_digitClass (c : Char) (h : digitClass c = true) : wordClass c = true := by
  simp only [digitClass] at h
  simp [wordClass, h]

theorem ne_dot_of_digitClass (c : Char) (h : digitClass c = true) : c ≠ '.' := by
  intro e
  rw [e, digitClass_dot] at h
  exact Bool.false_ne_true h

/-- An octet followed by a dot is matched in one way only. -/
theorem ends_octet_dot (rest : Regex) (w z : List Char) (hw : Block digitClass 3 w) :
    ends (.seq octet (.seq (lit '.') rest)) (w ++ '.' :: z) = ends rest z := by
  obtain ⟨hne, hall, hlen⟩ := hw
  match w, hne, hall, hlen with
  | [a], _, hall, _ =>
    have ha : digitClass a = true := hall a (by simp)
    simp [ends_seq, octet, ends_rep_one_cons, ha, optLoop_cls_cons, digitClass_dot,
      ends_lit_cons]
  | [a, b], _, hall, _ =>
    have ha : digitClass a = true := hall a (by simp)
    have hb : digitClass b = true := hall b (by simp)
    have hb2 := ne_dot_of_digitClass b hb
    simp [ends_seq, octet, ends_rep_one_cons, ha, hb, hb2, optLoop_cls_cons, digitClass_dot,
      ends_lit_cons, optLoop_zero]
  | [a, b, c], _, hall, _ =>
    have ha : digitClass a = true := hall a (by simp)
    have hb : digitClass b = true := hall b (by simp)
    have hc : digitClass c = true := hall c (by simp)
    have hb2 := ne_dot_of_digitClass b hb
    have hc2 := ne_dot_of_digitClass c hc
    simp [ends_seq, octet, ends_rep_one_cons, ha, hb, hc, hb2, hc2, optLoop_cls_cons,
      digitClass_dot, ends_lit_cons, optLoop_zero]
  | _ :: _ :: _ :: _ :: _, _, _, hlen => simp at hlen

/-- The shape of what the ip pattern consumes. -/
theorem mem_ends_RegexIP (s t : List Char) (h : t ∈ ends RegexIP s) :
    ∃ a b c d, s = a ++ '.' :: (b ++ '.' :: (c ++ '.' :: (d ++ t))) ∧
      Block digitClass 3 a ∧ Block digitClass 3 b ∧ Block digitClass 3 c ∧
      Block digitClass 3 d := by
  simp only [RegexIP, ends_seq, List.mem_flatMap] at h
  obtain ⟨t1, h1, t2, h2, t3, h3, t4, h4, t5, h5, t6, h6, h7⟩ := h
  obtain ⟨a, ea, ha⟩ := rep_one_mem _ _ _ _ h1
  obtain ⟨b, eb, hb⟩ := rep_one_mem _ _ _ _ h3
  obtain ⟨c, ec, hc⟩ := rep_one_mem _ _ _ _ h5
  obtain ⟨d, ed, hd⟩ := rep_one_mem _ _ _ _ h7
  have e2 := mem_ends_lit _ _ _ h2
  have e4 := mem_ends_lit _ _ _ h4
  have e6 := mem_ends_lit _ _ _ h6
  refine ⟨a, b, c, d, ?_, ha, hb, hc, hd⟩
  rw [ea, e2, eb, e4, ec, e6, ed]

/-- The first end of the ip pattern on a dotted quad that is not followed by a fourth-octet
digit it could still take. -/
theorem head_ends_RegexIP (a b c d t : List Char) (ha : Block digitClass 3 a)
    (hb : Block digitClass 3 b) (hc : Block digitClass 3 c) (hd : Block digitClass 3 d)
    (hstop : d.length < 3 → ∀ x r, t = x :: r → digitClass x = false) :
    (ends RegexIP (a ++ '.' :: (b ++ '.' :: (c ++ '.' :: (d ++ t))))).head? = some t := by
  unfold RegexIP
  rw [ends_octet_dot _ _ _ ha, ends_octet_dot _ _ _ hb, ends_octet_dot _ _ _ hc]
  exact rep_one_head digitClass 2 d t hd hstop

theorem DotSep_of_digits (w : List Char) (hne : w ≠ []) (hall : ∀ c ∈ w, digitClass c = true) :
    DotSep w := by
  induction w with
  | nil => exact absurd rfl hne
  | cons c w ih =>
    have hc : digitClass c = true := hall c (by simp)
    cases w with
    | nil => exact DotSep.one c hc
    | cons x w =>
      exact DotSep.digit c _ hc (ih (by simp) (fun y hy => hall y (List.mem_cons_of_mem _ hy)))

theorem DotSep_append_dot (w v : List Char) (hne : w ≠ [])
    (hall : ∀ c ∈ w, digitClass c = true) (hv : DotSep v) : DotSep (w ++ '.' :: v) := by
  induction w with
  | nil => exact absurd rfl hne
  | cons c w ih =>
    have hc : digitClass c = true := hall c (by simp)
    cases w with
    | nil => exact DotSep.dot c v hc hv
    | cons x w =>
      exact DotSep.digit c _ hc (ih (by simp) (fun y hy => hall y (List.mem_cons_of_mem _ hy)))

/-- A non-empty initial part of a dotted digit text ends with a digit, or with a digit and a
dot. -/
theorem DotSep_split (w : List Char) (hw : DotSep w) (x y : List Char) (h : w = x ++ y)
    (hx : x ≠ []) :
    (∃ x0 c, x = x0 ++ [c] ∧ digitClass c = true) ∨
      (∃ x0 c, x = x0 ++ [c, '.'] ∧ digitClass c = true) := by
  induction hw generalizing x with
  | one c hc =>
    cases x with
    | nil => exact absurd rfl hx
    | cons a x =>
      simp only [List.cons_append, List.cons.injEq] at h
      have hx2 : x = [] := by
        have := h.2; simp only [List.nil_eq, List.append_eq_nil] at this; exact this.1
      exact Or.inl ⟨[], c, by simp [hx2, h.1], hc⟩
  | digit c w hc _ ih =>
    cases x with
    | nil => exact absurd rfl hx
    | cons a x =>
      simp only [List.cons_append, List.cons.injEq] at h
      cases x with
      | nil => exact Or.inl ⟨[], c, by simp [h.1], hc⟩
      | cons b x =>
        rcases ih (b :: x) h.2 (by simp) with ⟨x0, d, e, hd⟩ | ⟨x0, d, e, hd⟩
        · exact Or.inl ⟨a :: x0, d, by simp [e], hd⟩
        · exact Or.inr ⟨a :: x0, d, by simp [e], hd⟩
  | dot c w hc _ ih =>
    cases x with
    | nil => exact absurd rfl hx
    | cons a x =>
      simp only [List.cons_append, List.cons.injEq] at h
      cases x with
      | nil => exact Or.inl ⟨[], c, by simp [h.1], hc⟩
      | cons b x =>
        simp only [List.cons_append, List.cons.injEq] at h
        cases x with
        | nil => exact Or.inr ⟨[], c, by simp [h.1, ← h.2.1], hc⟩
        | cons b2 x =>
          rcases ih (b2 :: x) h.2.2 (by simp) with ⟨x0, d, e, hd⟩ | ⟨x0, d, e, hd⟩
          · exact Or.inl ⟨a :: b :: x0, d, by simp [e], hd⟩
          · exact Or.inr ⟨a :: b :: x0, d, by simp [e], hd⟩

theorem DotSep_quad (a b c d : List Char) (ha : Block digitClass 3 a)
    (hb : Block digitClass 3 b) (hc : Block digitClass 3 c) (hd : Block digitClass 3 d) :
    DotSep (a ++ '.' :: (b ++ '.' :: (c ++ '.' :: d))) :=
  DotSep_append_dot _ _ ha.1 ha.2.1
    (DotSep_append_dot _ _ hb.1 hb.2.1
      (DotSep_append_dot _ _ hc.1 hc.2.1 (DotSep_of_digits _ hd.1 hd.2.1)))

theorem Sep_of_append (p q : List Char) (h : Sep (p ++ q)) : Sep q := by
  refine ⟨fun u0 c e => h.1 (p ++ u0) c ?_, fun u0 c e => h.2 (p ++ u0) c ?_⟩
  · rw [e, List.append_assoc]
  · rw [e, List.append_assoc]

/-! ## Successive matches -/

theorem findAllAux_skip (re : Regex) (k : Nat) (s : List Char) :
    findAllAux re k s = findAllAux re 0 (s.drop k) := by
  induction s generalizing k with
  | nil => simp [findAllAux]
  | cons c s ih =>
    cases k with
    | zero => rfl
    | succ k => simp only [findAllAux, List.drop_succ_cons]; exact ih k

theorem findAllAux_none (re : Regex) (c : Char) (s : List Char)
    (h : (ends re (c :: s)).head? = none) :
    findAllAux re 0 (c :: s) = findAllAux re 0 s := by
  simp only [findAllAux, h]

theorem findAllAux_some (re : Regex) (m t : List Char) (hm : m ≠ [])
    (h : (ends re (m ++ t)).head? = some t) :
    findAllAux re 0 (m ++ t) = m :: findAllAux re 0 t := by
  cases m with
  | nil => exact absurd rfl hm
  | cons c m =>
    simp only [List.cons_append] at h ⊢
    simp only [findAllAux, h]
    have hn : (c :: (m ++ t)).length - t.length = m.length + 1 := by
      simp only [List.length_cons, List.length_append]; omega
    rw [hn, findAllAux_skip]
    simp

theorem ip_match_found_aux (m t : List Char) (hm : m ≠ [])
    (h : (ends RegexIP (m ++ t)).head? = some t) :
    ∀ n u, u.length ≤ n → Sep u → m ∈ findAllAux RegexIP 0 (u ++ (m ++ t)) := by
  intro n
  induction n with
  | zero =>
    intro u hlen _
    have hu0 : u = [] := List.length_eq_zero.1 (Nat.le_zero.1 hlen)
    rw [hu0, List.nil_append, findAllAux_some _ _ _ hm h]
    exact List.mem_cons_self _ _
  | succ n ih =>
    intro u hlen hu
    cases u with
    | nil =>
      rw [List.nil_append, findAllAux_some _ _ _ hm h]
      exact List.mem_cons_self _ _
    | cons c u =>
      cases hh : (ends RegexIP (c :: u ++ (m ++ t))).head? with
      | none =>
        rw [List.cons_append] at hh ⊢
        rw [findAllAux_none _ _ _ hh]
        exact ih u (by simpa using hlen) (Sep_of_append [c] u hu)
      | some t2 =>
        obtain ⟨a, b, c2, d, e, ha, hb, hc, hd⟩ :=
          mem_ends_RegexIP _ _ (List.mem_of_mem_head? hh)
        have hds := DotSep_quad a b c2 d ha hb hc hd
        have e2 : (c :: u) ++ (m ++ t) = (a ++ '.' :: (b ++ '.' :: (c2 ++ '.' :: d))) ++ t2 := by
          rw [e]; simp
        have hw : a ++ '.' :: (b ++ '.' :: (c2 ++ '.' :: d)) ≠ [] := by
          intro h0; simp at h0
        rcases List.append_eq_append_iff.1 e2 with ⟨v, e3, e4⟩ | ⟨v, e3, e4⟩
        · -- the match goes beyond the separated text
          exfalso
          rcases DotSep_split _ hds (c :: u) v e3 (by simp) with ⟨x0, y, ex, hy⟩ | ⟨x0, y, ex, hy⟩
          · have := hu.1 x0 y ex
            rw [wordClass_of_digitClass y hy] at this
            exact Bool.noConfusion this
          · have := hu.2 x0 y ex
            rw [wordClass_of_digitClass y hy] at this
            exact Bool.noConfusion this
        · -- the match lies inside the separated text
          have key : (c :: u) ++ (m ++ t) =
              (a ++ '.' :: (b ++ '.' :: (c2 ++ '.' :: d))) ++ (v ++ (m ++ t)) := by
            rw [e3, List.append_assoc]
          rw [key, e4] at hh
          rw [key, findAllAux_some _ _ _ hw hh]
          rw [e3] at hu hlen
          refine List.mem_cons_of_mem _ ?_
          refine ih v ?_ (Sep_of_append _ v hu)
          rw [List.length_append] at hlen
          have : 0 < (a ++ '.' :: (b ++ '.' :: (c2 ++ '.' :: d))).length :=
            List.length_pos.2 hw
          omega

/-- A match of the ip pattern that starts right after a separated text is one of the
successive matches of the whole text. -/
theorem ip_match_found (u m t : List Char) (hu : Sep u) (hm : m ≠ [])
    (h : (ends RegexIP (m ++ t)).head? = some t) :
    m ∈ findAllAux RegexIP 0 (u ++ (m ++ t)) :=
  ip_match_found_aux m t hm h u.length u (Nat.le_refl _) hu

/-! ## The domain pattern -/

theorem plusLoop_succ (m : List Char → List (List Char)) (f : Nat) (s : List Char) :
    plusLoop m (f + 1) s = (m s).flatMap fun t => plusLoop m f t ++ [t] := rfl

theorem plusLoop_cls_stop (p : Char → Bool) (f : Nat) (c : Char) (s : List Char)
    (hc : p c = false) : plusLoop (ends (.cls p)) f (c :: s) = [] := by
  cases f with
  | zero => rfl
  | succ f => simp [plusLoop_succ, ends, hc]

theorem plusLoop_cls_cons (p : Char → Bool) (f : Nat) (c : Char) (s : List Char)
    (hc : p c = true) :
    plusLoop (ends (.cls p)) (f + 1) (c :: s) = plusLoop (ends (.cls p)) f s ++ [s] := by
  simp [plusLoop_succ, ends, hc]

theorem plusLoop_cls_mem (p : Char → Bool) (f : Nat) (s t : List Char)
    (h : t ∈ plusLoop (ends (.cls p)) f s) :
    ∃ r, r ≠ [] ∧ (∀ x ∈ r, p x = true) ∧ s = r ++ t := by
  induction f generalizing s with
  | zero => simp [plusLoop] at h
  | succ f ih =>
    cases s with
    | nil => simp [plusLoop_succ, ends] at h
    | cons c s =>
      by_cases hc : p c = true
      · rw [plusLoop_cls_cons p f c s hc, List.mem_append, List.mem_singleton] at h
        rcases h with h | h
        · obtain ⟨r, _, hr, e⟩ := ih s h
          refine ⟨c :: r, by simp, ?_, by simp [e]⟩
          intro x hx
          rcases List.mem_cons.1 hx with rfl | hx
          · exact hc
          · exact hr x hx
        · exact ⟨[c], by simp, by simpa using hc, by simp [h]⟩
      · have hc2 : p c = false := by simpa using hc
        rw [plusLoop_cls_stop p _ c s hc2] at h
        simp at h

theorem label_block (r z : List Char) (hne : r ≠ []) (hall : ∀ x ∈ r, wordClass x = true) :
    ∀ f, r.length ≤ f →
      (plusLoop (ends (.cls wordClass)) f (r ++ '.' :: z)).flatMap (ends (lit '.')) = [z] := by
  induction r with
  | nil => exact absurd rfl hne
  | cons c r ih =>
    intro f hf
    have hc : wordClass c = true := hall c (by simp)
    obtain ⟨f, rfl⟩ : ∃ g, f = g + 1 := ⟨f - 1, by simp at hf; omega⟩
    rw [List.cons_append, plusLoop_cls_cons _ _ _ _ hc, List.flatMap_append]
    cases r with
    | nil =>
      simp [plusLoop_cls_stop _ _ _ _ wordClass_dot, ends_lit_cons]
    | cons c2 r =>
      have hc2 : wordClass c2 = true := hall c2 (by simp)
      have hne2 : c2 ≠ '.' := by
        intro e; rw [e, wordClass_dot] at hc2; exact Bool.false_ne_true hc2
      rw [ih (by simp) (fun x hx => hall x (List.mem_cons_of_mem _ hx)) f
        (by simpa using hf)]
      simp [ends_lit_cons, hne2]

theorem ends_label_block (r z : List Char) (hne : r ≠ [])
    (hall : ∀ x ∈ r, wordClass x = true) : ends label (r ++ '.' :: z) = [z] := by
  simp only [label, ends_seq]
  simp only [ends]
  exact label_block r z hne hall _ (by simp)

theorem mem_ends_label (s t : List Char) (h : t ∈ ends label s) :
    ∃ r, r ≠ [] ∧ (∀ x ∈ r, wordClass x = true) ∧ s = r ++ '.' :: t := by
  simp only [label, ends_seq, List.mem_flatMap] at h
  obtain ⟨t1, h1, h2⟩ := h
  simp only [ends] at h1
  obtain ⟨r, hne, hall, e⟩ := plusLoop_cls_mem _ _ _ _ h1
  exact ⟨r, hne, hall, by rw [e, mem_ends_lit _ _ _ h2]⟩

theorem ends_label_cases (s : List Char) :
    ends label s = [] ∨
      ∃ r z, r ≠ [] ∧ (∀ x ∈ r, wordClass x = true) ∧ s = r ++ '.' :: z := by
  cases h : ends label s with
  | nil => exact Or.inl rfl
  | cons t ts =>
    obtain ⟨r, hne, hall, e⟩ := mem_ends_label s t (by rw [h]; exact List.mem_cons_self _ _)
    exact Or.inr ⟨r, t, hne, hall, e⟩

theorem ends_RegexDomain (s : List Char) : ends RegexDomain s = domEnds s.length s := by
  simp [RegexDomain, domEnds, ends]

theorem domEnds_zero (s : List Char) : domEnds 0 s = [] := rfl

theorem domEnds_stop (f : Nat) (s : List Char) (h : ends label s = []) :
    domEnds (f + 1) s = [] := by
  simp [domEnds, plusLoop_succ, h]

theorem domEnds_block (f : Nat) (r z : List Char) (hne : r ≠ [])
    (hall : ∀ x ∈ r, wordClass x = true) :
    domEnds (f + 1) (r ++ '.' :: z) =
      domEnds f z ++ ends (.rep (.cls wordClass) 1 6) z := by
  simp [domEnds, plusLoop_succ, ends_label_block r z hne hall]

theorem StartsWord_of_block (w t : List Char) (hw : Block wordClass 6 w) :
    StartsWord (w ++ t) := by
  obtain ⟨hne, hall, _⟩ := hw
  cases w with
  | nil => exact absurd rfl hne
  | cons c w => exact ⟨c, w ++ t, rfl, hall c (by simp)⟩

/-- Where the domain pattern matches, the text starts with a label, a dot and one more
character of the class. -/
theorem domEnds_ne_nil (f : Nat) (s : List Char) (h : domEnds f s ≠ []) :
    ∃ r z, r ≠ [] ∧ (∀ x ∈ r, wordClass x = true) ∧ s = r ++ '.' :: z ∧ StartsWord z := by
  induction f generalizing s with
  | zero => exact absurd (domEnds_zero s) h
  | succ f ih =>
    rcases ends_label_cases s with h0 | ⟨r, z, hne, hall, e⟩
    · exact absurd (domEnds_stop f s h0) h
    · refine ⟨r, z, hne, hall, e, ?_⟩
      rw [e, domEnds_block f r z hne hall] at h
      by_cases h1 : domEnds f z = []
      · rw [h1, List.nil_append] at h
        obtain ⟨t, ht⟩ := List.exists_mem_of_ne_nil _ h
        obtain ⟨w, ew, hw⟩ := rep_one_mem _ _ _ _ ht
        rw [ew]
        exact StartsWord_of_block w t hw
      · obtain ⟨r2, z2, hne2, hall2, e2, _⟩ := ih z h1
        cases r2 with
        | nil => exact absurd rfl hne2
        | cons c r2 => exact ⟨c, r2 ++ '.' :: z2, by simp [e2], hall2 c (by simp)⟩

/-- A label, a dot and one more character of the class: the domain pattern matches. -/
theorem domEnds_block_ne_nil (f : Nat) (r z : List Char) (hne : r ≠ [])
    (hall : ∀ x ∈ r, wordClass x = true) (hz : StartsWord z) :
    domEnds (f + 1) (r ++ '.' :: z) ≠ [] := by
  obtain ⟨c, z2, e, hc⟩ := hz
  rw [domEnds_block f r z hne hall, e, ends_rep_one_cons]
  simp only [hc, if_true]
  intro h
  exact optLoop_ne_nil _ _ _ (List.append_eq_nil.1 h).2

/-- The first match of the domain pattern: it ends with a dot and a last segment of up to six
characters of the class; a last segment shorter than six is not followed by a character of
the class; and what follows the match cannot continue it by another label. -/
theorem domEnds_head (f : Nat) (s t : List Char) (hf : s.length ≤ f)
    (h : (domEnds f s).head? = some t) :
    ∃ g fin, s = g ++ '.' :: (fin ++ t) ∧ Block wordClass 6 fin ∧
      (fin.length < 6 → ∀ c r, t = c :: r → wordClass c = false) ∧ NoDotWord t := by
  induction f generalizing s with
  | zero => simp [domEnds_zero] at h
  | succ f ih =>
    rcases ends_label_cases s with h0 | ⟨r, z, hne, hall, e⟩
    · simp [domEnds_stop f s h0] at h
    · rw [e, domEnds_block f r z hne hall] at h
      have hz : z.length ≤ f := by
        rw [e] at hf; simp only [List.length_append, List.length_cons] at hf; omega
      by_cases h1 : domEnds f z = []
      · rw [h1, List.nil_append] at h
        obtain ⟨fin, efin, hfin, hstop⟩ := rep_one_head_inv _ _ _ _ h
        refine ⟨r, fin, by rw [e, efin], hfin, hstop, ?_⟩
        intro r2 z2 hall2 hz2 et
        have hz0 : z ≠ [] := by
          rw [efin]; intro h0; exact hfin.1 (List.append_eq_nil.1 h0).1
        obtain ⟨f2, rfl⟩ : ∃ g, f = g + 1 :=
          ⟨f - 1, by have := List.length_pos.2 hz0; omega⟩
        have e3 : z = (fin ++ r2) ++ '.' :: z2 := by rw [efin, et, List.append_assoc]
        have hne3 : fin ++ r2 ≠ [] := by
          intro h0; exact hfin.1 (List.append_eq_nil.1 h0).1
        have hall3 : ∀ x ∈ fin ++ r2, wordClass x = true := by
          intro x hx
          rcases List.mem_append.1 hx with hx | hx
          · exact hfin.2.1 x hx
          · exact hall2 x hx
        rw [e3] at h1
        exact domEnds_block_ne_nil f2 _ z2 hne3 hall3 hz2 h1
      · rw [List.head?_append_of_ne_nil _ h1] at h
        obtain ⟨g, fin, eg, hfin, hstop, hno⟩ := ih z hz h
        exact ⟨r ++ '.' :: g, fin, by rw [e, eg]; simp, hfin, hstop, hno⟩

theorem last_segment_unique (g fin y d : List Char) (e : g ++ '.' :: fin = y ++ '.' :: d)
    (hfin : '.' ∉ fin) (hd : '.' ∉ d) : fin = d := by
  rcases List.append_eq_append_iff.1 e with ⟨v, _, e2⟩ | ⟨v, _, e2⟩
  · cases v with
    | nil => simpa using e2
    | cons x v =>
      simp only [List.cons_append, List.cons.injEq] at e2
      exact absurd (by rw [e2.2]; simp) hfin
  · cases v with
    | nil => simpa using e2.symm
    | cons x v =>
      simp only [List.cons_append, List.cons.injEq] at e2
      exact absurd (by rw [e2.2]; simp) hd

theorem DomainInv_nil (s : List Char) : DomainInv [] s := by
  constructor
  · intro u0 c e; simp at e
  · intro u0 c e; simp at e

/-- No match at `c :: s`: the scan moves on by one character. -/
theorem DomainInv_step (u s : List Char) (c : Char) (h : DomainInv u (c :: s))
    (hd : (ends RegexDomain (c :: s)).head? = none) : DomainInv (u ++ [c]) s := by
  constructor
  · intro u0 x e hx r z hall hz es
    have hc : c = x := by
      have := (List.append_inj' e rfl).2; simpa using this
    rw [ends_RegexDomain, List.head?_eq_none_iff] at hd
    have hne : domEnds (s.length + 1) ((c :: r) ++ '.' :: z) ≠ [] :=
      domEnds_block_ne_nil _ (c :: r) z (by simp) (by
        intro y hy
        rcases List.mem_cons.1 hy with rfl | hy
        · rw [hc]; exact hx
        · exact hall y hy) hz
    rw [List.cons_append, ← es] at hne
    exact hne hd
  · intro u0 x e hx hz
    have e2 : u ++ [c] = (u0 ++ [x]) ++ ['.'] := by rw [e]; simp
    have h3 := List.append_inj' e2 rfl
    have hc : c = '.' := by simpa using h3.2
    rw [hc] at h
    exact h.1 u0 x h3.1 hx [] s (by simp) hz rfl

/-- A match `g.fin` at the rest: the scan moves on to what follows the match. -/
theorem DomainInv_match (u g fin t : List Char) (hfin : Block wordClass 6 fin)
    (hno : NoDotWord t) : DomainInv (u ++ (g ++ '.' :: fin)) t := by
  constructor
  · intro _ _ _ _; exact hno
  · intro u0 x e _ _
    obtain ⟨hne, hall, _⟩ := hfin
    obtain ⟨fin0, y, rfl⟩ : ∃ fin0 y, fin = fin0 ++ [y] :=
      ⟨fin.dropLast, fin.getLast hne, (List.dropLast_append_getLast hne).symm⟩
    have e2 : (u ++ (g ++ '.' :: fin0)) ++ [y] = (u0 ++ [x]) ++ ['.'] := by
      have e3 : (u0 ++ [x]) ++ ['.'] = u0 ++ [x, '.'] := by simp
      rw [e3, ← e]; simp
    have hy : y = '.' := by simpa using (List.append_inj' e2 rfl).2
    have := hall y (by simp)
    rw [hy, wordClass_dot] at this
    exact Bool.false_ne_true this

/-- Every successive match of the domain pattern that the ip pattern matches as a whole is
one of the successive matches of the ip pattern in the same text. -/
theorem domain_ip_matches_aux :
    ∀ n u s, s.length ≤ n → DomainInv u s →
      ∀ m ∈ findAllAux RegexDomain 0 s, [] ∈ ends RegexIP m →
        m ∈ findAllAux RegexIP 0 (u ++ s) := by
  intro n
  induction n with
  | zero =>
    intro u s hlen _ m hm _
    have hs : s = [] := List.length_eq_zero.1 (Nat.le_zero.1 hlen)
    rw [hs] at hm
    simp [findAllAux] at hm
  | succ n ih =>
    intro u s hlen hinv m hm hip
    cases s with
    | nil => simp [findAllAux] at hm
    | cons c s1 =>
      cases hd : (ends RegexDomain (c :: s1)).head? with
      | none =>
        rw [findAllAux_none _ _ _ hd] at hm
        have h2 := ih (u ++ [c]) s1 (by simpa using hlen) (DomainInv_step u s1 c hinv hd) m hm hip
        simpa using h2
      | some t =>
        have hd2 : (domEnds (c :: s1).length (c :: s1)).head? = some t := by
          rw [← ends_RegexDomain]; exact hd
        obtain ⟨g, fin, e, hfin, hstop, hno⟩ := domEnds_head _ _ _ (Nat.le_refl _) hd2
        have em : c :: s1 = (g ++ '.' :: fin) ++ t := by rw [e]; simp
        have hm0 : g ++ '.' :: fin ≠ [] := by simp
        have hd3 : (ends RegexDomain ((g ++ '.' :: fin) ++ t)).head? = some t := by
          rw [← em]; exact hd
        rw [em, findAllAux_some _ _ _ hm0 hd3] at hm
        rcases List.mem_cons.1 hm with hm1 | hm1
        · -- the match itself
          have hne : domEnds (c :: s1).length (c :: s1) ≠ [] := by
            intro h0; rw [h0] at hd2; simp at hd2
          obtain ⟨r, z, hr, hall, es, hz⟩ := domEnds_ne_nil _ _ hne
          have hstart : StartsWord (c :: s1) := by
            rw [es]
            cases r with
            | nil => exact absurd rfl hr
            | cons y r => exact ⟨y, r ++ '.' :: z, rfl, hall y (by simp)⟩
          have hsep : Sep u := by
            constructor
            · intro u0 x eu
              by_contra hx
              exact hinv.1 u0 x eu (by simpa using hx) r z hall hz es
            · intro u0 x eu
              by_contra hx
              exact hinv.2 u0 x eu (by simpa using hx) hstart
          obtain ⟨a, b, c3, d, eip, ha, hb, hc, hd4⟩ := mem_ends_RegexIP _ _ hip
          rw [hm1, List.append_nil] at eip
          have efin : fin = d := by
            refine last_segment_unique g fin (a ++ '.' :: (b ++ '.' :: c3)) d ?_ ?_ ?_
            · rw [eip]; simp
            · intro h0
              have := hfin.2.1 _ h0
              rw [wordClass_dot] at this
              exact Bool.false_ne_true this
            · intro h0
              have := hd4.2.1 _ h0
              rw [digitClass_dot] at this
              exact Bool.false_ne_true this
          have hhead := head_ends_RegexIP a b c3 d t ha hb hc hd4 (by
            intro hlt x r2 et
            have hw := hstop (by rw [efin]; omega) x r2 et
            by_contra hx
            rw [wordClass_of_digitClass x (by simpa using hx)] at hw
            exact Bool.noConfusion hw)
          have e5 : a ++ '.' :: (b ++ '.' :: (c3 ++ '.' :: (d ++ t))) =
              (g ++ '.' :: fin) ++ t := by
            rw [eip]; simp
          rw [e5] at hhead
          rw [hm1, em]
          exact ip_match_found u _ t hsep hm0 hhead
        · -- a later match
          have hlt : t.length ≤ n := by
            have := congrArg List.length em
            simp only [List.length_cons, List.length_append] at this hlen
            omega
          have h2 := ih (u ++ (g ++ '.' :: fin)) t hlt (DomainInv_match u g fin t hfin hno)
            m hm1 hip
          rw [em, ← List.append_assoc]
          exact h2

theorem domain_ip_matches (content d : String) (hd : d ∈ FindAllString RegexDomain content)
    (hip : fullMatch RegexIP d) : d ∈ FindAllString RegexIP content := by
  simp only [FindAllString, List.mem_map] at hd ⊢
  obtain ⟨m, hm, rfl⟩ := hd
  refine ⟨m, ?_, rfl⟩
  have := domain_ip_matches_aux content.data.length [] content.data (Nat.le_refl _)
    (DomainInv_nil _) m hm hip
  simpa using this

/-! ## The bound on the iterations of `+` -/

theorem plusLoop_fuel_aux (m : List Char → List (List Char))
    (hm : ∀ s t, t ∈ m s → t.length < s.length) :
    ∀ f g s, s.length ≤ f → s.length ≤ g → plusLoop m f s = plusLoop m g s := by
  intro f
  induction f with
  | zero =>
    intro g s hf _
    have hs : s = [] := List.length_eq_zero.1 (Nat.le_zero.1 hf)
    have h0 : m [] = [] := by
      cases h : m [] with
      | nil => rfl
      | cons t ts => exact absurd (hm [] t (by rw [h]; exact List.mem_cons_self _ _)) (by simp)
    cases g with
    | zero => rfl
    | succ g => simp [hs, plusLoop, h0]
  | succ f ih =>
    intro g s hf hg
    cases g with
    | zero =>
      have hs : s = [] := List.length_eq_zero.1 (Nat.le_zero.1 hg)
      have h0 : m [] = [] := by
        cases h : m [] with
        | nil => rfl
        | cons t ts => exact absurd (hm [] t (by rw [h]; exact List.mem_cons_self _ _)) (by simp)
      simp [hs, plusLoop, h0]
    | succ g =>
      simp only [plusLoop]
      apply List.flatMap_congr
      intro t ht
      have := hm s t ht
      rw [ih g t (by omega) (by omega)]

/-- More iterations than the length of the text change nothing when every iteration consumes
at least one character: the bound `s.length` in `ends` never cuts a match short. -/
theorem plusLoop_fuel (m : List Char → List (List Char))
    (hm : ∀ s t, t ∈ m s → t.length < s.length) (f : Nat) (s : List Char)
    (hf : s.length ≤ f) : plusLoop m f s = plusLoop m s.length s :=
  plusLoop_fuel_aux m hm f s.length s hf (Nat.le_refl _)

theorem plusLoop_suffix (m : List Char → List (List Char)) (b : Prop)
    (hm : ∀ s t, t ∈ m s → ∃ w, s = w ++ t ∧ (b → w ≠ [])) (f : Nat) (s t : List Char)
    (h : t ∈ plusLoop m f s) : ∃ w, s = w ++ t ∧ (b → w ≠ []) := by
  induction f generalizing s with
  | zero => simp [plusLoop] at h
  | succ f ih =>
    simp only [plusLoop, List.mem_flatMap, List.mem_append, List.mem_singleton] at h
    obtain ⟨t1, h1, h2 | h2⟩ := h
    · obtain ⟨w1, e1, hb1⟩ := hm s t1 h1
      obtain ⟨w2, e2, _⟩ := ih t1 h2
      refine ⟨w1 ++ w2, by rw [e1, e2, List.append_assoc], fun hb h0 => ?_⟩
      exact hb1 hb (List.append_eq_nil.1 h0).1
    · rw [h2]; exact hm s t1 h1

theorem optLoop_suffix (m : List Char → List (List Char))
    (hm : ∀ s t, t ∈ m s → ∃ w, s = w ++ t) (k : Nat) (s t : List Char)
    (h : t ∈ optLoop m k s) : ∃ w, s = w ++ t := by
  induction k generalizing s with
  | zero =>
    simp only [optLoop, List.mem_singleton] at h
    exact ⟨[], by simp [h]⟩
  | succ k ih =>
    simp only [optLoop, List.mem_append, List.mem_flatMap, List.mem_singleton] at h
    rcases h with ⟨t1, h1, h2⟩ | h
    · obtain ⟨w1, e1⟩ := hm s t1 h1
      obtain ⟨w2, e2⟩ := ih t1 h2
      exact ⟨w1 ++ w2, by rw [e1, e2, List.append_assoc]⟩
    · exact ⟨[], by simp [h]⟩

theorem repLoop_suffix (m : List Char → List (List Char)) (b : Prop)
    (hm : ∀ s t, t ∈ m s → ∃ w, s = w ++ t ∧ (b → w ≠ [])) (extra lo : Nat)
    (s t : List Char) (h : t ∈ repLoop m extra lo s) :
    ∃ w, s = w ++ t ∧ (1 ≤ lo → b → w ≠ []) := by
  induction lo generalizing s with
  | zero =>
    simp only [repLoop] at h
    obtain ⟨w, e⟩ := optLoop_suffix m (fun s t ht => (hm s t ht).imp fun _ hw => hw.1) _ _ _ h
    exact ⟨w, e, fun h0 => absurd h0 (by simp)⟩
  | succ lo ih =>
    simp only [repLoop, List.mem_flatMap] at h
    obtain ⟨t1, h1, h2⟩ := h
    obtain ⟨w1, e1, hb1⟩ := hm s t1 h1
    obtain ⟨w2, e2, _⟩ := ih t1 h2
    refine ⟨w1 ++ w2, by rw [e1, e2, List.append_assoc], fun _ hb h0 => ?_⟩
    exact hb1 hb (List.append_eq_nil.1 h0).1

/-- Every end is a rest of the text, and a proper one for a pattern that cannot match the
empty text. -/
theorem ends_suffix (re : Regex) (s t : List Char) (h : t ∈ ends re s) :
    ∃ w, s = w ++ t ∧ (consumes re = true → w ≠ []) := by
  induction re generalizing s t with
  | cls p =>
    cases s with
    | nil => simp [ends] at h
    | cons c s =>
      by_cases hc : p c = true
      · simp [ends, hc] at h
        exact ⟨[c], by simp [h], fun _ => by simp⟩
      · have hc2 : p c = false := by simpa using hc
        simp [ends, hc2] at h
  | seq a b iha ihb =>
    simp only [ends, List.mem_flatMap] at h
    obtain ⟨t1, h1, h2⟩ := h
    obtain ⟨w1, e1, hb1⟩ := iha s t1 h1
    obtain ⟨w2, e2, hb2⟩ := ihb t1 t h2
    refine ⟨w1 ++ w2, by rw [e1, e2, List.append_assoc], fun hb h0 => ?_⟩
    simp only [consumes, Bool.or_eq_true] at hb
    rcases hb with hb | hb
    · exact hb1 hb (List.append_eq_nil.1 h0).1
    · exact hb2 hb (List.append_eq_nil.1 h0).2
  | plus a iha =>
    simp only [ends] at h
    exact plusLoop_suffix (ends a) (consumes a = true) iha _ s t h
  | rep a lo hi iha =>
    simp only [ends] at h
    obtain ⟨w, e, hw⟩ := repLoop_suffix (ends a) (consumes a = true) iha _ lo s t h
    refine ⟨w, e, fun hb => ?_⟩
    simp only [consumes, Bool.and_eq_true, decide_eq_true_eq] at hb
    exact hw hb.1 hb.2

theorem ends_consumes (re : Regex) (hre : consumes re = true) (s t : List Char)
    (h : t ∈ ends re s) : t.length < s.length := by
  obtain ⟨w, e, hw⟩ := ends_suffix re s t h
  have := List.length_pos.2 (hw hre)
  rw [e, List.length_append]; omega

/-- In the four patterns every `+` stands over a group that cannot match the empty text (a
character class, or the group `label`), and the patterns themselves cannot match the empty
text. -/
theorem patterns_consume :
    consumes label = true ∧ consumes RegexIP = true ∧ consumes RegexDomain = true ∧
      consumes RegexEmail = true ∧ consumes RegexURLPath = true := by
  decide

/-- A first match at `s` is a non-empty initial part of `s`, for a pattern that cannot match
the empty text. -/
theorem head_ends_split (re : Regex) (hre : consumes re = true) (s t : List Char)
    (h : (ends re s).head? = some t) : ∃ m, m ≠ [] ∧ s = m ++ t := by
  obtain ⟨w, e, hw⟩ := ends_suffix re s t (List.mem_of_mem_head? h)
  exact ⟨w, hw hre, e⟩

/-! ## The claim about ip strings and the domain slice -/

/-- The strings the ip pattern matches as a whole are the dotted quads of one to three digits
each. -/
theorem fullMatch_RegexIP_iff (s : String) :
    fullMatch RegexIP s ↔
      ∃ a b c d, s.data = a ++ '.' :: (b ++ '.' :: (c ++ '.' :: d)) ∧
        Block digitClass 3 a ∧ Block digitClass 3 b ∧ Block digitClass 3 c ∧
        Block digitClass 3 d := by
  constructor
  · intro h
    obtain ⟨a, b, c, d, e, ha, hb, hc, hd⟩ := mem_ends_RegexIP _ _ h
    exact ⟨a, b, c, d, by simpa using e, ha, hb, hc, hd⟩
  · rintro ⟨a, b, c, d, e, ha, hb, hc, hd⟩
    have := head_ends_RegexIP a b c d [] ha hb hc hd (by intro _ x r h0; simp at h0)
    rw [List.append_nil, ← e] at this
    exact List.mem_of_mem_head? this


/-- C2: for every asset type (in particular `domain`, `companydomain` and `all`), company
domain and file content, every match of the domain pattern that the ip pattern matches as a
whole is also one of the matches of the ip pattern in the same content; and if the domain
slice holds no string that the ip pattern matches as a whole before the content is handled,
it holds none afterwards. -/
theorem domain_slice_excludes_ip (assetType companyDomain fileContent : String) (st : State)
    (h : ∀ d ∈ st.domains, ¬ fullMatch RegexIP d) :
    (∀ d ∈ FindAllString RegexDomain fileContent,
        fullMatch RegexIP d → d ∈ FindAllString RegexIP fileContent) ∧
      ∀ d ∈ (processFile assetType companyDomain fileContent st).domains,
        ¬ fullMatch RegexIP d := by
  refine ⟨fun d hd hip => domain_ip_matches fileContent d hd hip, ?_⟩
  intro d hd hip
  rw [processFile_domains] at hd
  split_ifs at hd
  · rcases List.mem_append.1 hd with hd | hd
    · exact h d hd hip
    · rw [fresh_eq_filter, List.mem_filter, mem_firstOccurrences, domainCandidates,
        List.mem_filter] at hd
      have h1 := domain_ip_matches fileContent d hd.1.1 hip
      have h2 := hd.1.2
      simp only [decide_eq_true_eq] at h2
      exact h2 h1
  · exact h d hd hip

/-- C2 at a concrete input: the content `1.2.3.4 a.b 10.0.0.5` in `domain` mode from the
empty slices. -/
theorem domain_slice_excludes_ip_witness :
    (∀ d ∈ State.init.domains, ¬ fullMatch RegexIP d) ∧
      (∀ d ∈ FindAllString RegexDomain "1.2.3.4 a.b 10.0.0.5",
        fullMatch RegexIP d → d ∈ FindAllString RegexIP "1.2.3.4 a.b 10.0.0.5") ∧
      ∀ d ∈ (processFile "domain" "" "1.2.3.4 a.b 10.0.0.5" State.init).domains,
        ¬ fullMatch RegexIP d :=
  ⟨by decide, domain_slice_excludes_ip "domain" "" "1.2.3.4 a.b 10.0.0.5" State.init (by decide)⟩

/-! ## The worker pool: steps, schedules and what they leave in the slices -/

theorem fileSteps_foldl (assetType companyDomain fileContent : String) (st : State) :
    (fileSteps assetType fileContent).foldl (fun st s => s.apply assetType companyDomain st) st =
      processFile assetType companyDomain fileContent st := by
  simp only [fileSteps, List.foldl_append, processFile, domainBranch, ipBranch, emailBranch,
    urlPathBranch]
  split_ifs <;> simp [List.foldl_map, Step.apply]

theorem giveTo_mem (steps : List Step) (i : Nat) (ws ws2 : List (List Step))
    (h : giveTo steps i ws = some ws2) (x : Step) :
    x ∈ ws2.flatten ↔ x ∈ steps ∨ x ∈ ws.flatten := by
  induction ws generalizing i ws2 with
  | nil => cases i <;> simp [giveTo] at h
  | cons w ws ih =>
    cases i with
    | zero =>
      cases w with
      | nil =>
        simp only [giveTo, Option.some.injEq] at h
        subst h
        simp
      | cons a w => simp [giveTo] at h
    | succ i =>
      simp only [giveTo, Option.map_eq_some'] at h
      obtain ⟨ws3, h3, rfl⟩ := h
      have := ih i ws3 h3
      simp only [List.flatten_cons, List.mem_append, this]
      tauto

theorem takeAt_mem (i : Nat) (ws ws2 : List (List Step)) (s : Step)
    (h : takeAt i ws = some (s, ws2)) (x : Step) :
    x ∈ ws.flatten ↔ x = s ∨ x ∈ ws2.flatten := by
  induction ws generalizing i ws2 with
  | nil => cases i <;> simp [takeAt] at h
  | cons w ws ih =>
    cases i with
    | zero =>
      cases w with
      | nil => simp [takeAt] at h
      | cons a w =>
        simp only [takeAt, Option.some.injEq, Prod.mk.injEq] at h
        obtain ⟨rfl, rfl⟩ := h
        simp
    | succ i =>
      simp only [takeAt, Option.map_eq_some', Prod.mk.injEq] at h
      obtain ⟨r, h3, rfl, rfl⟩ := h
      have := ih i r.2 h3
      simp only [List.flatten_cons, List.mem_append, this]
      tauto

/-- One action either hands a file over, which changes neither the shared variables nor the
steps still to be made, or makes one of the steps still to be made. -/
theorem exec1_pending (assetType companyDomain : String) (c c2 : Config) (a : Action)
    (h : exec1 assetType companyDomain c a = some c2) :
    (c2.st = c.st ∧ ∀ x, x ∈ pending assetType c2 ↔ x ∈ pending assetType c) ∨
      ∃ s, c2.st = s.apply assetType companyDomain c.st ∧
        ∀ x, x ∈ pending assetType c ↔ x = s ∨ x ∈ pending assetType c2 := by
  cases a with
  | receive i =>
    left
    cases hq : c.queue with
    | nil => simp [exec1, hq] at h
    | cons f q =>
      simp only [exec1, hq, Option.map_eq_some'] at h
      obtain ⟨ws, hws, rfl⟩ := h
      refine ⟨rfl, fun x => ?_⟩
      have := giveTo_mem _ _ _ _ hws x
      simp only [pending, hq, List.mem_append, List.flatMap_cons, this]
      tauto
  | step i =>
    right
    simp only [exec1, Option.map_eq_some'] at h
    obtain ⟨r, hr, rfl⟩ := h
    refine ⟨r.1, rfl, fun x => ?_⟩
    have := takeAt_mem i c.workers r.2 r.1 hr x
    simp only [pending, List.mem_append, this]
    tauto

/-- Along any sequence of actions whose steps each add their own values to a slice, the
members of the slice together with the values still to be added stay the same. -/
theorem exec_members (assetType companyDomain : String) (sel : State → List String)
    (new : Step → List String)
    (hstep : ∀ s st, s.isUrlPath = false → ∀ v,
      v ∈ sel (s.apply assetType companyDomain st) ↔ v ∈ sel st ∨ v ∈ new s)
    (schedule : List Action) (c c2 : Config)
    (h : exec assetType companyDomain c schedule = some c2)
    (hc : ∀ s ∈ pending assetType c, s.isUrlPath = false) (v : String) :
    (v ∈ sel c2.st ∨ ∃ s ∈ pending assetType c2, v ∈ new s) ↔
      (v ∈ sel c.st ∨ ∃ s ∈ pending assetType c, v ∈ new s) := by
  induction schedule generalizing c with
  | nil =>
    simp only [exec, Option.some.injEq] at h
    rw [h]
  | cons a rest ih =>
    cases h1 : exec1 assetType companyDomain c a with
    | none => simp [exec, h1] at h
    | some c1 =>
      simp only [exec, h1] at h
      rcases exec1_pending assetType companyDomain c c1 a h1 with ⟨hst, hp⟩ | ⟨s, hst, hp⟩
      · rw [ih c1 h (fun x hx => hc x ((hp x).1 hx)), hst]
        simp only [hp]
      · have hs : s.isUrlPath = false := hc s ((hp s).2 (Or.inl rfl))
        rw [ih c1 h (fun x hx => hc x ((hp x).2 (Or.inr hx))), hst, hstep s c.st hs v]
        constructor
        · rintro ((h0 | h0) | ⟨x, hx, h0⟩)
          · exact Or.inl h0
          · exact Or.inr ⟨s, (hp s).2 (Or.inl rfl), h0⟩
          · exact Or.inr ⟨x, (hp x).2 (Or.inr hx), h0⟩
        · rintro (h0 | ⟨x, hx, h0⟩)
          · exact Or.inl (Or.inl h0)
          · rcases (hp x).1 hx with rfl | hx2
            · exact Or.inl (Or.inr h0)
            · exact Or.inr ⟨x, hx2, h0⟩

theorem fileSteps_not_urlPath (assetType fileContent : String) (h1 : assetType ≠ "all")
    (h2 : assetType ≠ "urlpath") : ∀ s ∈ fileSteps assetType fileContent, s.isUrlPath = false := by
  intro s hs
  simp only [fileSteps, h1, h2, false_or, if_false, List.nil_append, List.mem_append] at hs
  rcases hs with hs | hs | hs
  · split_ifs at hs
    · obtain ⟨e, _, rfl⟩ := List.mem_map.1 hs; rfl
    · simp at hs
  · split_ifs at hs
    · obtain ⟨e, _, rfl⟩ := List.mem_map.1 hs; rfl
    · simp at hs
  · split_ifs at hs
    · obtain ⟨e, _, rfl⟩ := List.mem_map.1 hs; rfl
    · simp at hs

/-- The members of a slice at the end of a complete run without urlpath steps: the values of
all the steps of all the files, whatever the number of workers and the schedule. -/
theorem runWorkers_members (assetType companyDomain : String) (sel : State → List String)
    (new : Step → List String)
    (hstep : ∀ s st, s.isUrlPath = false → ∀ v,
      v ∈ sel (s.apply assetType companyDomain st) ↔ v ∈ sel st ∨ v ∈ new s)
    (h1 : assetType ≠ "all") (h2 : assetType ≠ "urlpath")
    (threads : Nat) (fileContents : List String) (schedule : List Action) (st : State)
    (h : runWorkers assetType companyDomain threads fileContents schedule = some st)
    (v : String) :
    v ∈ sel st ↔
      (v ∈ sel State.init ∨ ∃ s ∈ fileContents.flatMap (fileSteps assetType), v ∈ new s) := by
  unfold runWorkers at h
  cases he : exec assetType companyDomain ⟨fileContents, List.replicate threads [], State.init⟩
      schedule with
  | none => simp [he] at h
  | some c =>
    simp only [he] at h
    split_ifs at h with hfin
    simp only [Option.some.injEq] at h
    have hrep : (List.replicate threads ([] : List Step)).flatten = [] := by
      induction threads with
      | zero => rfl
      | succ n ih => simp [List.replicate_succ, ih]
    have hp0 : pending assetType ⟨fileContents, List.replicate threads [], State.init⟩ =
        fileContents.flatMap (fileSteps assetType) := by
      simp [pending, hrep]
    have hc : ∀ s ∈ pending assetType ⟨fileContents, List.replicate threads [], State.init⟩,
        s.isUrlPath = false := by
      rw [hp0]
      intro s hs
      obtain ⟨f, _, hf⟩ := List.mem_flatMap.1 hs
      exact fileSteps_not_urlPath assetType f h1 h2 s hf
    have key := exec_members assetType companyDomain sel new hstep schedule _ c he hc v
    have hp1 : pending assetType c = [] := by simp [pending, hfin.1, hfin.2]
    rw [hp1, hp0, h] at key
    simpa using key

theorem apply_emails (assetType companyDomain : String) (s : Step) (st : State)
    (hs : s.isUrlPath = false) (v : String) :
    v ∈ (s.apply assetType companyDomain st).emails ↔ v ∈ st.emails ∨ v ∈ s.newEmails := by
  cases s with
  | urlPath u => simp [Step.isUrlPath] at hs
  | email e =>
    by_cases h : e ∈ st.emails
    · simp only [Step.apply, emailStep, h, if_true, Step.newEmails, List.mem_singleton]
      constructor
      · exact Or.inl
      · rintro (h0 | rfl)
        · exact h0
        · exact h
    · simp [Step.apply, emailStep, h, Step.newEmails]
  | ip i => simp only [Step.apply, ipStep, Step.newEmails]; split_ifs <;> simp
  | domain ips d => simp only [Step.apply, domainStep, Step.newEmails]; split_ifs <;> simp

theorem apply_ips (assetType companyDomain : String) (s : Step) (st : State)
    (hs : s.isUrlPath = false) (v : String) :
    v ∈ (s.apply assetType companyDomain st).ips ↔ v ∈ st.ips ∨ v ∈ s.newIps := by
  cases s with
  | urlPath u => simp [Step.isUrlPath] at hs
  | email e => simp only [Step.apply, emailStep, Step.newIps]; split_ifs <;> simp
  | ip i =>
    by_cases h : i ∈ st.ips
    · simp only [Step.apply, ipStep, h, if_true, Step.newIps, List.mem_singleton]
      constructor
      · exact Or.inl
      · rintro (h0 | rfl)
        · exact h0
        · exact h
    · simp [Step.apply, ipStep, h, Step.newIps]
  | domain ips d => simp only [Step.apply, domainStep, Step.newIps]; split_ifs <;> simp

theorem apply_domains (assetType companyDomain : String) (s : Step) (st : State)
    (hs : s.isUrlPath = false) (v : String) :
    v ∈ (s.apply assetType companyDomain st).domains ↔ v ∈ st.domains ∨ v ∈ s.newDomains := by
  cases s with
  | urlPath u => simp [Step.isUrlPath] at hs
  | email e => simp only [Step.apply, emailStep, Step.newDomains]; split_ifs <;> simp
  | ip i => simp only [Step.apply, ipStep, Step.newDomains]; split_ifs <;> simp
  | domain ips d =>
    by_cases h0 : d ∈ ips
    · simp [Step.apply, domainStep, h0, Step.newDomains]
    · by_cases h : d ∈ st.domains
      · simp only [Step.apply, domainStep, h0, h, if_true, if_false, Step.newDomains,
          List.mem_singleton]
        constructor
        · exact Or.inl
        · rintro (h1 | rfl)
          · exact h1
          · exact h
      · simp only [Step.apply, domainStep, h0, h, if_false, Step.newDomains]
        split_ifs <;> simp

theorem apply_urlPaths (assetType companyDomain : String) (s : Step) (st : State) :
    (s.apply assetType companyDomain st).urlPaths = st.urlPaths := by
  cases s with
  | urlPath u => simp only [Step.apply, urlPathStep]; split_ifs <;> rfl
  | email e => simp only [Step.apply, emailStep]; split_ifs <;> rfl
  | ip i => simp only [Step.apply, ipStep]; split_ifs <;> rfl
  | domain ips d => simp only [Step.apply, domainStep]; split_ifs <;> rfl

/-- In every mode other than `urlpath` (and `all`, which `main` refuses), two complete runs
over the same files leave the same members in each of the four slices, whatever their numbers
of workers and their schedules. -/
theorem worker_count_invariance (assetType companyDomain : String) (h1 : assetType ≠ "all")
    (h2 : assetType ≠ "urlpath") (fileContents : List String) (threads1 threads2 : Nat)
    (schedule1 schedule2 : List Action) (st1 st2 : State)
    (hr1 : runWorkers assetType companyDomain threads1 fileContents schedule1 = some st1)
    (hr2 : runWorkers assetType companyDomain threads2 fileContents schedule2 = some st2) :
    (∀ v, v ∈ st1.emails ↔ v ∈ st2.emails) ∧ (∀ v, v ∈ st1.domains ↔ v ∈ st2.domains) ∧
      (∀ v, v ∈ st1.ips ↔ v ∈ st2.ips) ∧ (∀ v, v ∈ st1.urlPaths ↔ v ∈ st2.urlPaths) := by
  refine ⟨fun v => ?_, fun v => ?_, fun v => ?_, fun v => ?_⟩
  · rw [runWorkers_members assetType companyDomain (fun st => st.emails) Step.newEmails
        (apply_emails assetType companyDomain) h1 h2 _ _ _ _ hr1,
      runWorkers_members assetType companyDomain (fun st => st.emails) Step.newEmails
        (apply_emails assetType companyDomain) h1 h2 _ _ _ _ hr2]
  · rw [runWorkers_members assetType companyDomain (fun st => st.domains) Step.newDomains
        (apply_domains assetType companyDomain) h1 h2 _ _ _ _ hr1,
      runWorkers_members assetType companyDomain (fun st => st.domains) Step.newDomains
        (apply_domains assetType companyDomain) h1 h2 _ _ _ _ hr2]
  · rw [runWorkers_members assetType companyDomain (fun st => st.ips) Step.newIps
        (apply_ips assetType companyDomain) h1 h2 _ _ _ _ hr1,
      runWorkers_members assetType companyDomain (fun st => st.ips) Step.newIps
        (apply_ips assetType companyDomain) h1 h2 _ _ _ _ hr2]
  · rw [runWorkers_members assetType companyDomain (fun st => st.urlPaths) (fun _ => [])
        (fun s st _ v => by simp [apply_urlPaths]) h1 h2 _ _ _ _ hr1,
      runWorkers_members assetType companyDomain (fun st => st.urlPaths) (fun _ => [])
        (fun s st _ v => by simp [apply_urlPaths]) h1 h2 _ _ _ _ hr2]

/-- With one worker the schedule is forced: every complete run ends in the state of
`processFiles`. -/
theorem exec_one_worker (assetType companyDomain : String) (schedule : List Action) :
    ∀ (c c2 : Config) (w : List Step), c.workers = [w] →
      exec assetType companyDomain c schedule = some c2 →
      ∃ w2, c2.workers = [w2] ∧
        c2.queue.foldl (fun st f => processFile assetType companyDomain f st)
            (w2.foldl (fun st s => s.apply assetType companyDomain st) c2.st) =
          c.queue.foldl (fun st f => processFile assetType companyDomain f st)
            (w.foldl (fun st s => s.apply assetType companyDomain st) c.st) := by
  induction schedule with
  | nil =>
    intro c c2 w hw h
    simp only [exec, Option.some.injEq] at h
    subst h
    exact ⟨w, hw, rfl⟩
  | cons a rest ih =>
    intro c c2 w hw h
    cases h1 : exec1 assetType companyDomain c a with
    | none => simp [exec, h1] at h
    | some c1 =>
      simp only [exec, h1] at h
      cases a with
      | receive i =>
        cases hq : c.queue with
        | nil => simp [exec1, hq] at h1
        | cons f q =>
          simp only [exec1, hq, hw, Option.map_eq_some'] at h1
          obtain ⟨ws, hws, rfl⟩ := h1
          cases i with
          | succ i => simp [giveTo] at hws
          | zero =>
            cases w with
            | cons x w => simp [giveTo] at hws
            | nil =>
              simp only [giveTo, Option.some.injEq] at hws
              obtain ⟨w2, hw2, e⟩ := ih _ c2 (fileSteps assetType f) hws.symm h
              refine ⟨w2, hw2, ?_⟩
              rw [e]
              simp [fileSteps_foldl]
      | step i =>
        simp only [exec1, hw, Option.map_eq_some'] at h1
        obtain ⟨r, hr, rfl⟩ := h1
        cases i with
        | succ i => simp [takeAt] at hr
        | zero =>
          cases w with
          | nil => simp [takeAt] at hr
          | cons x w =>
            simp only [takeAt, Option.some.injEq] at hr
            subst hr
            obtain ⟨w2, hw2, e⟩ := ih _ c2 w rfl h
            exact ⟨w2, hw2, by rw [e]; rfl⟩

theorem runWorkers_one (assetType companyDomain : String) (fileContents : List String)
    (schedule : List Action) (st : State)
    (h : runWorkers assetType companyDomain 1 fileContents schedule = some st) :
    st = processFiles assetType companyDomain fileContents := by
  unfold runWorkers at h
  cases he : exec assetType companyDomain ⟨fileContents, List.replicate 1 [], State.init⟩
      schedule with
  | none => rw [he] at h; simp at h
  | some c =>
    simp only [he] at h
    split_ifs at h with hfin
    simp only [Option.some.injEq] at h
    obtain ⟨w2, hw2, e⟩ := exec_one_worker assetType companyDomain schedule _ c [] rfl he
    have hw : w2 = [] := by
      have := hfin.2; rw [hw2] at this; simpa using this
    rw [hfin.1, hw] at e
    simp only [List.foldl_nil] at e
    rw [← h, e]
    rfl

/-! ## The claims about the slices and the output -/

/-- In `companydomain` mode from the empty slices, a domain candidate of the file content is
printed exactly when its lower-case form equals the configured root as given, or ends with a
dot followed by the configured root as given. -/
theorem companydomain_prints_iff (companyDomain fileContent d : String)
    (hd : d ∈ domainCandidates fileContent) :
    d ∈ (processFile "companydomain" companyDomain fileContent State.init).stdout ↔
      (HasSuffix (ToLower d) ("." ++ companyDomain) = true ∨ ToLower d = companyDomain) := by
  rw [processFile_companydomain]
  simp [State.init, fresh_nil_left, List.mem_filter, mem_firstOccurrences, hd, companyMatch]


/-- C1 (the code at the claim's failing input): in `urlpath` mode, one run over the single file
content `http://a http://a`, started from the empty slices, prints the line `http://a` twice,
so the printed lines do have a repeated element. -/
theorem urlpath_prints_duplicate :
    (processFiles "urlpath" "" ["http://a http://a"]).stdout = ["http://a", "http://a"] ∧
      ¬ (processFiles "urlpath" "" ["http://a http://a"]).stdout.Nodup := by
  decide

/-- C3 (the code at the claim's failing input): with the configured root `Example.com`, the
domain candidate `example.com` has the same lower-case form as the root, is inserted into the
domain slice, and is not printed. -/
theorem companydomain_uppercase_root :
    ToLower "example.com" = ToLower "Example.com" ∧
      "example.com" ∈ domainCandidates "example.com" ∧
      (processFile "companydomain" "Example.com" "example.com" State.init).domains =
        ["example.com"] ∧
      (processFile "companydomain" "Example.com" "example.com" State.init).stdout = [] := by
  decide

/-- C4 (the code at the claim's failing input): in `urlpath` mode, after the file content
`http://a` the value `http://a` is a member of the slice `emails`; after the next file content
`http://b` it is no longer a member. -/
theorem urlpath_removes_from_emails :
    "http://a" ∈ (processFile "urlpath" "" "http://a" State.init).emails ∧
      "http://a" ∉
        (processFile "urlpath" "" "http://b"
          (processFile "urlpath" "" "http://a" State.init)).emails := by
  decide

/-- C5 (counterexample): a run of `main` with type `all` on the content of Scenario 1 ends
at the check of the asset type: the only line printed is the invalid-asset-type line, and
`a@b.com` is not emitted. -/
theorem scenario1_all_refused :
    main "scenario1.txt" "all" "" [scenario1] =
        .fatal ("[-] Invalid asset type: all provided. " ++
          "Can be one of: email,ip,domain,urlpath,companydomain") ∧
      "a@b.com" ∉ (main "scenario1.txt" "all" "" [scenario1]).stdout := by
  decide

/-- C5 (amended): a run of `main` with type `all` on the content of Scenario 1 is refused at
the check of the asset type. On the same single content, from the empty slices, a run with
type `email` emits exactly `a@b.com`; with type `urlpath` exactly `http://1.2.3.4/page`; with
type `ip` exactly `1.2.3.4` and `10.0.0.5`; with type `domain` exactly `b.com` and
`sub.example.com`, so the domain output contains neither IP literal. -/
theorem scenario1_by_type :
    (main "scenario1.txt" "all" "" [scenario1]).stdout =
        ["[-] Invalid asset type: all provided. " ++
          "Can be one of: email,ip,domain,urlpath,companydomain"] ∧
      (main "scenario1.txt" "email" "" [scenario1]).stdout = ["a@b.com"] ∧
      (main "scenario1.txt" "urlpath" "" [scenario1]).stdout = ["http://1.2.3.4/page"] ∧
      (main "scenario1.txt" "ip" "" [scenario1]).stdout = ["1.2.3.4", "10.0.0.5"] ∧
      (main "scenario1.txt" "domain" "" [scenario1]).stdout = ["b.com", "sub.example.com"] := by
  decide

/-- C6: in each of the modes `email`, `ip` and `domain`, for every sequence of file contents
handled in order from the empty slices, the printed lines are the concatenation of the
per-file matches (for `domain`: the domain candidates) with every later repetition dropped,
and the slice of that type is the same list. -/
theorem single_type_output_exactly_once (companyDomain : String) (files : List String) :
    ((processFiles "email" companyDomain files).stdout =
        firstOccurrences (files.flatMap (FindAllString RegexEmail)) ∧
      (processFiles "email" companyDomain files).emails =
        firstOccurrences (files.flatMap (FindAllString RegexEmail))) ∧
    ((processFiles "ip" companyDomain files).stdout =
        firstOccurrences (files.flatMap (FindAllString RegexIP)) ∧
      (processFiles "ip" companyDomain files).ips =
        firstOccurrences (files.flatMap (FindAllString RegexIP))) ∧
    ((processFiles "domain" companyDomain files).stdout =
        firstOccurrences (files.flatMap domainCandidates) ∧
      (processFiles "domain" companyDomain files).domains =
        firstOccurrences (files.flatMap domainCandidates)) := by
  simp [processFiles, foldl_processFile_email, foldl_processFile_ip, foldl_processFile_domain,
    State.init, fresh_nil_left]

/-- C7: for every file content, starting state and company domain, `companydomain` mode
leaves each of the four slices equal to what `domain` mode leaves from the same state; both
modes only append to the output, and the lines `companydomain` mode appends are a sub-list of
the lines `domain` mode appends. -/
theorem companydomain_same_bookkeeping (companyDomain fileContent : String) (st : State) :
    (processFile "companydomain" companyDomain fileContent st).emails =
        (processFile "domain" companyDomain fileContent st).emails ∧
      (processFile "companydomain" companyDomain fileContent st).domains =
        (processFile "domain" companyDomain fileContent st).domains ∧
      (processFile "companydomain" companyDomain fileContent st).ips =
        (processFile "domain" companyDomain fileContent st).ips ∧
      (processFile "companydomain" companyDomain fileContent st).urlPaths =
        (processFile "domain" companyDomain fileContent st).urlPaths ∧
      ∃ linesCompany linesDomain,
        (processFile "companydomain" companyDomain fileContent st).stdout =
            st.stdout ++ linesCompany ∧
          (processFile "domain" companyDomain fileContent st).stdout =
            st.stdout ++ linesDomain ∧
          linesCompany.Sublist linesDomain := by
  rw [processFile_companydomain, processFile_domain]
  exact ⟨rfl, rfl, rfl, rfl, _, _, rfl, rfl, List.filter_sublist _⟩

/-- C8: for every asset type, company domain, starting state and file content, handling the
same content a second time right after the first pass leaves each of the four slices equal to
what it was after the first pass. -/
theorem processFile_twice (assetType companyDomain fileContent : String) (st : State) :
    (processFile assetType companyDomain fileContent
        (processFile assetType companyDomain fileContent st)).emails =
        (processFile assetType companyDomain fileContent st).emails ∧
      (processFile assetType companyDomain fileContent
        (processFile assetType companyDomain fileContent st)).domains =
        (processFile assetType companyDomain fileContent st).domains ∧
      (processFile assetType companyDomain fileContent
        (processFile assetType companyDomain fileContent st)).ips =
        (processFile assetType companyDomain fileContent st).ips ∧
      (processFile assetType companyDomain fileContent
        (processFile assetType companyDomain fileContent st)).urlPaths =
        (processFile assetType companyDomain fileContent st).urlPaths := by
  refine ⟨?_, ?_, ?_, ?_⟩
  · rw [processFile_emails, processFile_urlPaths, processFile_emails]
    rcases urlPathEmails_cases st.urlPaths (FindAllString RegexURLPath fileContent) with h | ⟨u, h⟩
    · simp only [h]
      split_ifs <;> simp [fresh_idem]
    · simp only [h]
      split_ifs <;> simp [fresh_idem]
  · rw [processFile_domains, processFile_domains]
    split_ifs <;> simp [fresh_idem]
  · rw [processFile_ips, processFile_ips]
    split_ifs <;> simp [fresh_idem]
  · rw [processFile_urlPaths]

/-- C9 (the code at the claim's failing input): in `urlpath` mode over the two file contents
`http://a` and `http://b`, the run of one worker leaves `emails` holding `http://b` only, and
a run of two workers in which the second worker makes its step first leaves `emails` holding
`http://a` only: the members of the slice depend on the number of workers and the schedule. -/
theorem urlpath_emails_depend_on_schedule :
    (runWorkers "urlpath" "" 1 ["http://a", "http://b"]
        [.receive 0, .step 0, .receive 0, .step 0]).map (fun st => st.emails) =
        some ["http://b"] ∧
      (runWorkers "urlpath" "" 2 ["http://a", "http://b"]
        [.receive 0, .receive 1, .step 1, .step 0]).map (fun st => st.emails) =
        some ["http://a"] := by
  decide

/-- C10: in `urlpath` mode, for every file content with at least one urlpath match (`u` being
the last one) and every state whose urlpath slice is empty, the urlpath slice is still empty
afterwards, every match (repeated or not) is printed, and the email slice afterwards is the
one-element list holding the last match. -/
theorem urlpath_feeds_emails (companyDomain fileContent : String) (st : State) (u : String)
    (hempty : st.urlPaths = [])
    (hlast : (FindAllString RegexURLPath fileContent).getLast? = some u) :
    (processFile "urlpath" companyDomain fileContent st).urlPaths = [] ∧
      (processFile "urlpath" companyDomain fileContent st).stdout =
        st.stdout ++ FindAllString RegexURLPath fileContent ∧
      (processFile "urlpath" companyDomain fileContent st).emails = [u] := by
  rw [processFile_urlpath]
  simp [hempty, urlPathEmails, hlast]

/-- C10 at a concrete input: the content `http://a x http://a http://b/c` from the initial
state. -/
theorem urlpath_feeds_emails_witness :
    State.init.urlPaths = [] ∧
      (FindAllString RegexURLPath "http://a x http://a http://b/c").getLast? =
        some "http://b/c" ∧
      (processFile "urlpath" "" "http://a x http://a http://b/c" State.init).urlPaths = [] ∧
      (processFile "urlpath" "" "http://a x http://a http://b/c" State.init).stdout =
        State.init.stdout ++ FindAllString RegexURLPath "http://a x http://a http://b/c" ∧
      (processFile "urlpath" "" "http://a x http://a http://b/c" State.init).emails =
        ["http://b/c"] :=
  ⟨rfl, by decide,
    urlpath_feeds_emails "" "http://a x http://a http://b/c" State.init "http://b/c" rfl
      (by decide)⟩

end Goregexassets
